import Mathlib

/-!
# Verification of the descripten IR middle end

A shallow embedding of the typed IR data model of `src/ir/ir.hh` and the
minimal runtime error contract of `src/runtime/error.hh`, together with
theorems settling the specification claims about them.

Conventions:
* C++ objects become inductive types / structures; virtual dispatch becomes
  a match on the constructor of the receiver (the left-hand side).
* `Value *` operands and `Block *` targets are modelled as numeric ids
  (value ids and block indices), following the arena-index view of the IR.
* Fallible operations return `Option`; an `assert` failure or an invalid
  cast is `none`.
-/

namespace Descripten

/-! ## Type system (`class Type` and subclasses, src/ir/ir.hh)

`Type::Identifier` enumerates ID_VOID .. ID_OPAQUE.  The concrete type
objects created by the source are: the interned singletons for the
primitive types, `value` and `reference` (base-class instances), plus the
subclass instances `ReferenceType(name)`, `ArrayType(elem, length)`,
`PointerType(elem)` and `OpaqueType(name)`.  Each subclass instance is one
constructor here; virtual dispatch on `this` is a match on the
left-hand-side constructor. -/

inductive Ty where
  /-- Base `Type` with ID_VOID (`Type::_void()`). -/
  | void
  /-- Base `Type` with ID_BOOLEAN (`Type::boolean()`). -/
  | boolean
  /-- Base `Type` with ID_DOUBLE (`Type::_double()`). -/
  | double
  /-- Base `Type` with ID_STRING (`Type::string()`). -/
  | string
  /-- Base `Type` with ID_VALUE (`Type::value()`). -/
  | value
  /-- Base `Type` with ID_REFERENCE (`Type::reference()`). -/
  | reference
  /-- `class ReferenceType` carrying the name of the referred entity. -/
  | referenceType (name : String)
  /-- `class ArrayType` carrying the element type and length. -/
  | arrayType (elem : Ty) (length : Nat)
  /-- `class PointerType` carrying the pointee type. -/
  | pointerType (elem : Ty)
  /-- `class OpaqueType` carrying the opaque type name. -/
  | opaqueType (name : String)
deriving DecidableEq, Repr

namespace Ty

/-- `Type::identifier()`: the ordinal of the `Identifier` enum value stored
in the object (ID_VOID = 0 .. ID_OPAQUE = 8). -/
def identifier : Ty → Nat
  | .void => 0
  | .boolean => 1
  | .double => 2
  | .string => 3
  | .value => 4
  | .reference => 5
  | .referenceType _ => 5
  | .arrayType _ _ => 6
  | .pointerType _ => 7
  | .opaqueType _ => 8

/-- `Type::is_array()`. -/
def is_array (t : Ty) : Bool := t.identifier == 6

/-- `Type::is_pointer()`. -/
def is_pointer (t : Ty) : Bool := t.identifier == 7

/-- `x.equal_to(y)`.  Virtual dispatch chooses the override of the
dynamic type of `x`: `ArrayType`, `PointerType` and `OpaqueType` override
(first comparing identifiers, then the parameters), every other class uses
the base `Type::equal_to`, which compares the identifiers only.
`ReferenceType` does not override `equal_to`. -/
def equal_to : Ty → Ty → Bool
  | .arrayType t l, rhs =>
    match rhs with
    | .arrayType t' l' => t.equal_to t' && l == l'
    | _ => false
  | .pointerType t, rhs =>
    match rhs with
    | .pointerType t' => t.equal_to t'
    | _ => false
  | .opaqueType n, rhs =>
    match rhs with
    | .opaqueType n' => n == n'
    | _ => false
  | lhs, rhs => lhs.identifier == rhs.identifier

/-- `x.less_than(y)`.  Virtual dispatch as for `equal_to`: the three
overriding subclasses order first by identifier ordinal and then by the
parameters; every other class (including `ReferenceType`) uses the base
`Type::less_than`, comparing identifier ordinals. -/
def less_than : Ty → Ty → Bool
  | .arrayType t l, rhs =>
    match rhs with
    | .arrayType t' l' => if t.equal_to t' then decide (l < l') else t.less_than t'
    | _ => decide ((Ty.arrayType t l).identifier < rhs.identifier)
  | .pointerType t, rhs =>
    match rhs with
    | .pointerType t' => t.less_than t'
    | _ => decide ((Ty.pointerType t).identifier < rhs.identifier)
  | .opaqueType n, rhs =>
    match rhs with
    | .opaqueType n' => decide (n < n')
    | _ => decide ((Ty.opaqueType n).identifier < rhs.identifier)
  | lhs, rhs => decide (lhs.identifier < rhs.identifier)

/-- `Type::as_string()` (debug printing), with virtual dispatch.  The base
implementation `assert(false)`s on the derived identifiers, but each
derived class overrides `as_string`; a failed assertion is `none`. -/
def as_string : Ty → Option String
  | .void => some "void"
  | .boolean => some "boolean"
  | .double => some "double"
  | .string => some "string"
  | .value => some "value"
  | .reference => some "reference"
  | .referenceType n => some ("reference(" ++ n ++ ")")
  | .arrayType t l => t.as_string.map (fun s => s ++ "[" ++ toString l ++ "]")
  | .pointerType t => t.as_string.map (fun s => s ++ "*")
  | .opaqueType n => some ("opaque " ++ n)

/-- Erase the data that `equal_to` ignores: the name stored in a
`ReferenceType` (whose `equal_to` is the identifier-only base version),
and the distinction between the plain `reference` singleton and a
`ReferenceType` instance (both carry ID_REFERENCE).  Two types are
`equal_to` exactly when their erasures coincide. -/
def erase : Ty → Ty
  | .reference => .referenceType ""
  | .referenceType _ => .referenceType ""
  | .arrayType t l => .arrayType t.erase l
  | .pointerType t => .pointerType t.erase
  | t => t

theorem erase_identifier (t : Ty) : t.erase.identifier = t.identifier := by
  induction t <;> simp [erase, identifier]

theorem erase_idem (t : Ty) : t.erase.erase = t.erase := by
  induction t <;> simp_all [erase]

/-- Characterisation of `equal_to`: it is equality after erasing
`ReferenceType` names. -/
theorem equal_to_iff_erase (x y : Ty) : x.equal_to y = true ↔ x.erase = y.erase := by
  induction x generalizing y with
  | arrayType t l ih =>
    cases y <;> simp_all [equal_to, erase, identifier]
  | pointerType t ih =>
    cases y <;> simp_all [equal_to, erase, identifier]
  | opaqueType n =>
    cases y <;> simp [equal_to, erase, identifier]
  | referenceType n =>
    cases y <;> simp [equal_to, erase, identifier]
  | _ =>
    cases y <;> simp [equal_to, erase, identifier]

theorem equal_to_erase (x y : Ty) : x.erase.equal_to y.erase = x.equal_to y := by
  rw [Bool.eq_iff_iff]
  simp [equal_to_iff_erase, erase_idem]

theorem equal_to_comm (x y : Ty) : x.equal_to y = y.equal_to x := by
  rw [Bool.eq_iff_iff]
  simp [equal_to_iff_erase]
  exact eq_comm

theorem equal_to_refl (x : Ty) : x.equal_to x = true := by
  simp [equal_to_iff_erase]

/-- `less_than` also ignores exactly the `ReferenceType` names. -/
theorem less_than_erase (x y : Ty) : x.less_than y = x.erase.less_than y.erase := by
  induction x generalizing y with
  | arrayType t l ih =>
    cases y <;> simp [less_than, erase, identifier, equal_to_erase, ← ih]
  | pointerType t ih =>
    cases y <;> simp [less_than, erase, identifier, ← ih]
  | opaqueType n =>
    cases y <;> simp [less_than, erase, identifier]
  | referenceType n =>
    cases y <;> simp [less_than, erase, identifier]
  | _ =>
    cases y <;> simp [less_than, erase, identifier]

theorem less_than_imp_identifier_le (x y : Ty) (h : x.less_than y = true) :
    x.identifier ≤ y.identifier := by
  cases x <;> cases y <;> simp [less_than, identifier] at h ⊢ <;> omega

theorem less_than_of_identifier_lt (x y : Ty) (h : x.identifier < y.identifier) :
    x.less_than y = true := by
  cases x <;> cases y <;> simp [less_than, identifier] at h ⊢ <;> omega

/-- Trichotomy: of `x.less_than(y)`, `y.less_than(x)` and `x.equal_to(y)`,
exactly one holds. -/
theorem trichotomy (x y : Ty) :
    (x.less_than y).toNat + (y.less_than x).toNat + (x.equal_to y).toNat = 1 := by
  induction x generalizing y with
  | arrayType t l ih =>
    cases y with
    | arrayType t' l' =>
      have hcomm := equal_to_comm t t'
      by_cases heq : t.equal_to t' = true
      · rcases Nat.lt_trichotomy l l' with h | h | h
        · simp_all [less_than, equal_to, Nat.lt_asymm h, Nat.ne_of_lt h]
        · subst h; simp_all [less_than, equal_to]
        · simp_all [less_than, equal_to, Nat.lt_asymm h, (Nat.ne_of_lt h).symm]
      · have := ih t'
        simp_all [less_than, equal_to]
    | _ => simp [less_than, equal_to, identifier]
  | pointerType t ih =>
    cases y with
    | pointerType t' =>
      have := ih t'
      simp_all [less_than, equal_to]
    | _ => simp [less_than, equal_to, identifier]
  | opaqueType n =>
    cases y with
    | opaqueType n' =>
      rcases lt_trichotomy n n' with h | h | h <;>
        simp_all [less_than, equal_to, not_lt_of_gt, ne_of_gt, ne_of_lt, lt_asymm]
    | _ => simp [less_than, equal_to, identifier]
  | _ =>
    cases y <;> simp [less_than, equal_to, identifier]

theorem less_than_asymm (x y : Ty) (h : x.less_than y = true) :
    y.less_than x = false := by
  have ht := trichotomy x y
  cases hyx : y.less_than x with
  | false => rfl
  | true =>
    rw [h, hyx] at ht
    cases he : x.equal_to y <;> rw [he] at ht <;> simp at ht

theorem eq_arrayType_of_identifier (y : Ty) (h : y.identifier = 6) :
    ∃ t l, y = .arrayType t l := by
  cases y <;> simp_all [identifier]

theorem eq_pointerType_of_identifier (y : Ty) (h : y.identifier = 7) :
    ∃ t, y = .pointerType t := by
  cases y <;> simp_all [identifier]

theorem eq_opaqueType_of_identifier (y : Ty) (h : y.identifier = 8) :
    ∃ n, y = .opaqueType n := by
  cases y <;> simp_all [identifier]

/-- When the identifiers coincide but the receiver does not recurse
structurally (all classes except the three overriding subclasses),
`less_than` is false. -/
theorem less_than_self_identifier_base (x y : Ty) (hx : x.identifier ≤ 5)
    (h : x.identifier = y.identifier) : x.less_than y = false := by
  cases x <;> cases y <;> simp_all [less_than, identifier]

/-- Transitivity for a receiver that dispatches to the base
`Type::less_than` (identifier comparison only). -/
theorem less_than_trans_base (x y z : Ty) (hx : x.identifier ≤ 5)
    (hxy : x.less_than y = true) (hyz : y.less_than z = true) :
    x.less_than z = true := by
  have h1 := less_than_imp_identifier_le _ _ hxy
  have h2 := less_than_imp_identifier_le _ _ hyz
  by_cases hxz : x.identifier < z.identifier
  · exact less_than_of_identifier_lt _ _ hxz
  · exfalso
    have hid : x.identifier = y.identifier := by omega
    have := less_than_self_identifier_base x y hx hid
    rw [this] at hxy
    simp at hxy

/-- Transitivity of `Type::less_than`. -/
theorem less_than_trans (x : Ty) :
    ∀ y z, x.less_than y = true → y.less_than z = true → x.less_than z = true := by
  induction x with
  | arrayType t l ih =>
    intro y z hxy hyz
    have h1 := less_than_imp_identifier_le _ _ hxy
    have h2 := less_than_imp_identifier_le _ _ hyz
    by_cases hxz : (Ty.arrayType t l).identifier < z.identifier
    · exact less_than_of_identifier_lt _ _ hxz
    · have hy6 : y.identifier = 6 := by simp [identifier] at h1 h2 hxz ⊢; omega
      have hz6 : z.identifier = 6 := by simp [identifier] at h1 h2 hxz ⊢; omega
      obtain ⟨t', l', rfl⟩ := eq_arrayType_of_identifier y hy6
      obtain ⟨t'', l'', rfl⟩ := eq_arrayType_of_identifier z hz6
      cases e1 : t.equal_to t' <;> cases e2 : t'.equal_to t'' <;>
        simp [less_than, e1, e2] at hxy hyz ⊢
      · -- both element comparisons unequal: recurse through the IH
        have e3 : t.equal_to t'' = false := by
          cases h3 : t.equal_to t'' with
          | false => rfl
          | true =>
            exfalso
            have he3 := (equal_to_iff_erase t t'').mp h3
            rw [less_than_erase t' t'', ← he3, ← less_than_erase t' t] at hyz
            rw [less_than_asymm t' t hyz] at hxy
            simp at hxy
        rw [e3]
        simp only [Bool.false_eq_true, if_false]
        exact ih t' t'' hxy hyz
      · -- elements of x and y unequal, of y and z equal
        have he2 := (equal_to_iff_erase t' t'').mp e2
        have e3 : t.equal_to t'' = false := by
          cases h3 : t.equal_to t'' with
          | false => rfl
          | true =>
            exfalso
            have he3 := (equal_to_iff_erase t t'').mp h3
            have : t.equal_to t' = true := by
              rw [equal_to_iff_erase, he3, he2]
            rw [this] at e1
            simp at e1
        rw [e3]
        simp only [Bool.false_eq_true, if_false]
        rw [less_than_erase t t'', ← he2, ← less_than_erase t t']
        exact hxy
      · -- elements of x and y equal, of y and z unequal
        have he1 := (equal_to_iff_erase t t').mp e1
        have e3 : t.equal_to t'' = false := by
          cases h3 : t.equal_to t'' with
          | false => rfl
          | true =>
            exfalso
            have he3 := (equal_to_iff_erase t t'').mp h3
            have : t'.equal_to t'' = true := by
              rw [equal_to_iff_erase, ← he1, he3]
            rw [this] at e2
            simp at e2
        rw [e3]
        simp only [Bool.false_eq_true, if_false]
        rw [less_than_erase t t'', he1, ← less_than_erase t' t'']
        exact hyz
      · -- both element comparisons equal: the lengths decide
        have e3 : t.equal_to t'' = true := by
          rw [equal_to_iff_erase, (equal_to_iff_erase t t').mp e1,
            (equal_to_iff_erase t' t'').mp e2]
        rw [e3]
        simp only [if_true, decide_eq_true_eq]
        omega
  | pointerType t ih =>
    intro y z hxy hyz
    have h1 := less_than_imp_identifier_le _ _ hxy
    have h2 := less_than_imp_identifier_le _ _ hyz
    by_cases hxz : (Ty.pointerType t).identifier < z.identifier
    · exact less_than_of_identifier_lt _ _ hxz
    · have hy7 : y.identifier = 7 := by simp [identifier] at h1 h2 hxz ⊢; omega
      have hz7 : z.identifier = 7 := by simp [identifier] at h1 h2 hxz ⊢; omega
      obtain ⟨t', rfl⟩ := eq_pointerType_of_identifier y hy7
      obtain ⟨t'', rfl⟩ := eq_pointerType_of_identifier z hz7
      simp only [less_than] at hxy hyz ⊢
      exact ih t' t'' hxy hyz
  | opaqueType n =>
    intro y z hxy hyz
    have h1 := less_than_imp_identifier_le _ _ hxy
    have h2 := less_than_imp_identifier_le _ _ hyz
    by_cases hxz : (Ty.opaqueType n).identifier < z.identifier
    · exact less_than_of_identifier_lt _ _ hxz
    · have hy8 : y.identifier = 8 := by simp [identifier] at h1 h2 hxz ⊢; omega
      have hz8 : z.identifier = 8 := by simp [identifier] at h1 h2 hxz ⊢; omega
      obtain ⟨n', rfl⟩ := eq_opaqueType_of_identifier y hy8
      obtain ⟨n'', rfl⟩ := eq_opaqueType_of_identifier z hz8
      simp only [less_than, decide_eq_true_eq] at hxy hyz ⊢
      exact lt_trans hxy hyz
  | _ =>
    intro y z hxy hyz
    exact less_than_trans_base _ y z (by simp [identifier]) hxy hyz

end Ty

/-! ## `ArrayElementConstant` (src/ir/ir.hh)

The constructor asserts `array->type()->is_array() || array->type()->is_pointer()`.
`type()` evaluates `static_cast<const ArrayType *>(array_->type())->type()`;
that downcast is meaningful only when the operand's type object really is an
`ArrayType`.  The constant is modelled by the data `type()` inspects: the
type of its array operand, and the index. -/

/-- The `static_cast<const ArrayType *>` in `ArrayElementConstant::type()`:
yields the `ArrayType` fields when the object is an `ArrayType`, and is
undefined (`none`) on every other dynamic type. -/
def castToArrayType : Ty → Option (Ty × Nat)
  | .arrayType t l => some (t, l)
  | _ => none

structure ArrayElementConstant where
  /-- `array_->type()`: the type of the array operand. -/
  array_ty : Ty
  /-- `index_`. -/
  index : Nat

namespace ArrayElementConstant

/-- The constructor's assertion: the operand is array- or pointer-typed. -/
def ctor_assertion (c : ArrayElementConstant) : Bool :=
  c.array_ty.is_array || c.array_ty.is_pointer

/-- `ArrayElementConstant::type()`:
`static_cast<const ArrayType *>(array_->type())->type()`. -/
def type (c : ArrayElementConstant) : Option Ty :=
  (castToArrayType c.array_ty).map Prod.fst

end ArrayElementConstant

/-! ## Runtime error hierarchy (src/runtime/error.hh)

`EsError` plus the six `EsNativeError<T>` subclasses.  The subclass
constructors are inline in the header and pass the canonical name literal
to `EsNativeError`, which forwards it to the protected
`EsError(name, message)` constructor. -/

/-- The built-in error classes declared in runtime/error.hh. -/
inductive ErrClass where
  | esError
  | esEvalError
  | esRangeError
  | esReferenceError
  | esSyntaxError
  | esTypeError
  | esUriError
deriving DecidableEq, Repr

/-- An error object as observed through `name()` and `message()`. -/
structure EsErrorObj where
  name : String
  message : String
deriving DecidableEq, Repr

/-- Modelled from the spec: the protected constructor
`EsError(const EsString *name, const EsString *message)` is defined in
runtime/error.cc, which is not among the sources; per the spec every
built-in error is "constructible from a message value" with observable
`name()`/`message()`, so the constructor stores both fields. -/
def EsError.construct (name message : String) : EsErrorObj :=
  { name := name, message := message }

/-- Modelled from the spec: `EsNativeError<T>(name, message)` (defined in
runtime/error.cc, not among the sources) forwards both arguments to the
protected `EsError` constructor. -/
def EsNativeError.construct (name message : String) : EsErrorObj :=
  EsError.construct name message

/-- `T::create_inst(message)` for each error class.  The name literals are
the `_ESTR("...")` arguments of the inline subclass constructors in
runtime/error.hh; the generic `EsError` case is modelled from the spec
("generic Error"). -/
def create_inst : ErrClass → String → EsErrorObj
  | .esError, m => EsError.construct "Error" m
  | .esEvalError, m => EsNativeError.construct "EvalError" m
  | .esRangeError, m => EsNativeError.construct "RangeError" m
  | .esReferenceError, m => EsNativeError.construct "ReferenceError" m
  | .esSyntaxError, m => EsNativeError.construct "SyntaxError" m
  | .esTypeError, m => EsNativeError.construct "TypeError" m
  | .esUriError, m => EsNativeError.construct "URIError" m

/-- `EsValue::from_obj`, restricted to the error objects `es_throw` builds. -/
inductive EsValue where
  | from_obj (o : EsErrorObj)
deriving DecidableEq, Repr

/-- An execution context, observed through its pending-exception slot. -/
structure EsContext where
  pending_exception : Option EsValue
deriving DecidableEq, Repr

/-- `EsContext::set_pending_exception`. -/
def EsContext.set_pending_exception (c : EsContext) (v : EsValue) : EsContext :=
  { c with pending_exception := some v }

/-- `es_throw<T>(message)` (the non-DEBUG branch, inline in
runtime/error.hh): constructs `T::create_inst(message)`, wraps it with
`EsValue::from_obj`, sets it as the pending exception on the topmost
context of `EsContextStack::instance()`, and returns normally.  The
context stack is a list with the topmost context first; `top()` requires a
non-empty stack. -/
def es_throw (T : ErrClass) (message : String) :
    List EsContext → Option (List EsContext)
  | [] => none
  | top :: rest =>
    some (top.set_pending_exception (.from_obj (create_inst T message)) :: rest)

/-! ## Instructions (src/ir/ir.hh)

One constructor per concrete `Instruction` subclass.  `Value *` operands
are value ids (`Nat`), `Block *` operands are block indices (`Nat`),
`Function *` operands are function indices.  The enums nested in the
instruction classes keep their C++ names. -/

/-- `ArrayInstruction::Operation`. -/
inductive ArrOp | GET | PUT
deriving DecidableEq, Repr

/-- `BinaryInstruction::Operation`. -/
inductive BinOp | ADD | SUB | OR | EQ
deriving DecidableEq, Repr

/-- `CallInstruction::Operation`. -/
inductive CallOp | NORMAL | NAMED | NEW
deriving DecidableEq, Repr

/-- `ValueInstruction::Operation`. -/
inductive ValOp
  | TO_BOOLEAN | TO_DOUBLE | TO_STRING
  | FROM_BOOLEAN | FROM_DOUBLE | FROM_STRING
  | IS_NULL | IS_UNDEFINED
  | TEST_COERCIBILITY
deriving DecidableEq, Repr

/-- `Declaration::Kind` (also `Link::Kind`). -/
inductive DeclKind | FUNCTION | VARIABLE | PARAMETER
deriving DecidableEq, Repr

/-- `EsBinaryInstruction::Operation`. -/
inductive EsBinOp
  | MUL | DIV | MOD | ADD | SUB | LS | RSS | RUS
  | LT | GT | LTE | GTE | IN | INSTANCEOF
  | EQ | NEQ | STRICT_EQ | STRICT_NEQ
  | BIT_AND | BIT_XOR | BIT_OR
deriving DecidableEq, Repr

/-- `EsUnaryInstruction::Operation`. -/
inductive EsUnOp | TYPEOF | NEG | BIT_NOT | LOG_NOT
deriving DecidableEq, Repr

/-- The concrete `Instruction` subclasses of src/ir/ir.hh, one constructor
each, carrying the fields their class declares. -/
inductive Instr where
  | args_obj_init (argc : Int)
  | args_obj_link (args : Nat) (index : Int) (val : Nat)
  | arr (op : ArrOp) (index : Nat) (a : Nat) (val : Option Nat)
  | bin (op : BinOp) (lval rval : Nat)
  | bnd_extra_init (num_extra : Int)
  | bnd_extra_ptr (hops : Int)
  | call (op : CallOp) (f : Nat) (argc : Int) (argv res : Nat)
  | call_keyed (obj : Nat) (key : Nat) (argc : Int) (argv res : Nat)
  | call_keyed_slow (obj key : Nat) (argc : Int) (argv res : Nat)
  | call_named (key : Nat) (argc : Int) (argv res : Nat)
  | val (op : ValOp) (v : Nat) (res : Option Nat)
  | br (cond : Nat) (true_block false_block : Nat)
  | jmp (block : Nat)
  | ret (v : Nat)
  | mem_alloc (ty : Ty)
  | mem_store (dst src : Nat)
  | mem_elm_ptr (v : Nat) (index : Nat)
  | meta_ctx_load (key : Nat)
  | meta_prp_load (obj key : Nat)
  | ctx_set_strict (strict : Bool)
  | ctx_enter_catch (key : Nat)
  | ctx_enter_with (v : Nat)
  | ctx_leave
  | ctx_this
  | ctx_get (key : Nat) (res : Nat) (cid : Nat)
  | ctx_put (key : Nat) (v : Nat) (cid : Nat)
  | ctx_del (key : Nat) (res : Nat)
  | ex_save_state
  | ex_load_state (state : Nat)
  | ex_set (v : Nat)
  | ex_clear
  | init_args (dst : Nat) (prmc : Int)
  | init_args_obj (prmc : Int) (prmv : Nat)
  | decl (kind : DeclKind) (key : Nat) (is_strict : Bool)
      (v : Option Nat) (prm_index : Option Int) (prm_array : Option Nat)
  | link (kind : DeclKind) (key : Nat) (is_strict : Bool) (v : Nat)
  | prp_def_data (obj key v : Nat)
  | prp_def_accessor (obj : Nat) (key : Nat) (f : Nat) (is_setter : Bool)
  | prp_it_new (obj : Nat)
  | prp_it_next (it v : Nat)
  | prp_get (obj : Nat) (key : Nat) (res : Nat)
  | prp_get_slow (obj key res : Nat)
  | prp_put (obj : Nat) (key : Nat) (v : Nat)
  | prp_put_slow (obj key v : Nat)
  | prp_del (obj : Nat) (key : Nat) (res : Nat)
  | prp_del_slow (obj key res : Nat)
  | es_new_arr (length : Nat) (vals : Nat)
  | es_new_fun_decl (f : Nat) (param_count : Int) (is_strict : Bool)
  | es_new_fun_expr (f : Nat) (param_count : Int) (is_strict : Bool)
  | es_new_obj
  | es_new_rex (pattern flags : String)
  | es_bin (op : EsBinOp) (lval rval res : Nat)
  | es_unary (op : EsUnOp) (v res : Nat)

namespace Instr

/-- `Instruction::is_terminating()`: the base class returns `false`;
`TerminateInstruction` overrides it to `true`, and its only subclasses are
`BranchInstruction`, `JumpInstruction` and `ReturnInstruction`. -/
def is_terminating : Instr → Bool
  | .br _ _ _ => true
  | .jmp _ => true
  | .ret _ => true
  | _ => false

/-- The blocks an instruction refers to: a branch refers to its
`true_block` and `false_block`, a jump to its destination block, every
other instruction to none. -/
def targets : Instr → List Nat
  | .br _ tb fb => [tb, fb]
  | .jmp b => [b]
  | _ => []

theorem targets_eq_nil_of_not_terminating (i : Instr)
    (h : i.is_terminating = false) : i.targets = [] := by
  cases i <;> simp_all [is_terminating, targets]

end Instr

/-! ## IR builder (Block / Function factories)

The bodies of `Function`'s constructor, `Function::push_block`,
`Function::last_block`, `Block::push_instr`, the `Block::push_*`
factories and `Block::add_referrer` / `Block::remove_referrer` live in
src/ir/ir.cc, which is not among the sources; the model below follows the
spec (§3 "Block", §4.3 "IR builder") and the doc comments in src/ir/ir.hh.
Blocks are kept in an arena indexed by position; instructions carry a
unique numeric id standing for their object identity. -/

/-- An instruction together with its identity. -/
abbrev InstrEntry := Nat × Instr

/-- A `Block`: label, ordered instruction list, referrer set (ids of
terminating instructions referencing this block). -/
structure BlockData where
  label : String
  instrs : List InstrEntry
  referrers : List Nat

/-- A `Function`: name, global flag, ordered block list. -/
structure FunctionData where
  name : String
  is_global : Bool
  blocks : List BlockData

/-- Builder state: the function under construction plus the id supply. -/
structure BuildState where
  next_id : Nat
  fn : FunctionData

namespace BlockData

/-- Whether the block's last instruction (if any) is a terminator. -/
def terminated (b : BlockData) : Bool :=
  match b.instrs.getLast? with
  | some e => e.2.is_terminating
  | none => false

/-- Modelled from the spec: `Block::add_referrer` (defined in ir.cc, not
among the sources) inserts the instruction into the referrer set. -/
def add_referrer (b : BlockData) (id : Nat) : BlockData :=
  if id ∈ b.referrers then b else { b with referrers := b.referrers ++ [id] }

/-- Modelled from the spec: `Block::remove_referrer` (defined in ir.cc,
not among the sources) erases the instruction from the referrer set. -/
def remove_referrer (b : BlockData) (id : Nat) : BlockData :=
  { b with referrers := b.referrers.filter (fun x => x != id) }

end BlockData

/-- `Function::last_block()`: the last block of the function, if any. -/
def FunctionData.last_block (f : FunctionData) : Option BlockData :=
  f.blocks.getLast?

/-- Modelled from the spec: the `Function` constructor (defined in ir.cc,
not among the sources) creates the function with one initial (entry)
block, as stated by the doc comment of `Function::last_block` in
src/ir/ir.hh. -/
def initState (name : String) (is_global : Bool) : BuildState :=
  { next_id := 0
    fn := { name := name, is_global := is_global
            blocks := [{ label := "", instrs := [], referrers := [] }] } }

/-- The terminating instructions a terminator factory can build:
`push_trm_br`, `push_trm_jmp`, `push_trm_ret`. -/
inductive Terminator where
  | br (cond : Nat) (true_block false_block : Nat)
  | jmp (block : Nat)
  | ret (v : Nat)

/-- The instruction a terminator factory appends. -/
def Terminator.toInstr : Terminator → Instr
  | .br c tb fb => .br c tb fb
  | .jmp b => .jmp b
  | .ret v => .ret v

theorem Terminator.toInstr_terminating (t : Terminator) :
    t.toInstr.is_terminating = true := by
  cases t <;> rfl

/-- One builder call.  `push_instr` stands for any of the non-terminator
factories (each of which routes through `Block::push_instr`),
`push_trm` for the three terminator factories, `push_block` for
`Function::push_block`, and `replace_trm` for replacing a block's
terminator (the operation for which `Block::remove_referrer` exists). -/
inductive BuildOp where
  | push_block (label : String)
  | push_instr (b : Nat) (i : Instr)
  | push_trm (b : Nat) (t : Terminator)
  | replace_trm (b : Nat) (t : Terminator)

/-- Insert `id` into the referrer set of block `t` (no-op when the index
does not name a block). -/
def addReferrer (blocks : List BlockData) (t : Nat) (id : Nat) : List BlockData :=
  match blocks[t]? with
  | some tb => blocks.set t (tb.add_referrer id)
  | none => blocks

/-- Register `id` in the referrer sets of all of `targets`. -/
def addReferrers (blocks : List BlockData) : List Nat → Nat → List BlockData
  | [], _ => blocks
  | t :: ts, id => addReferrers (addReferrer blocks t id) ts id

/-- Erase `id` from the referrer set of block `t`. -/
def removeReferrer (blocks : List BlockData) (t : Nat) (id : Nat) : List BlockData :=
  match blocks[t]? with
  | some tb => blocks.set t (tb.remove_referrer id)
  | none => blocks

/-- Erase `id` from the referrer sets of all of `targets`. -/
def removeReferrers (blocks : List BlockData) : List Nat → Nat → List BlockData
  | [], _ => blocks
  | t :: ts, id => removeReferrers (removeReferrer blocks t id) ts id

/-- Modelled from the spec: one step of the IR builder (§4.3).  The
factory bodies are in ir.cc, not among the sources.  A non-terminator
factory asserts that the block is not already terminated; a terminator
factory asserts the same, appends the terminator and registers it in the
referrer set of every target block; replacing a terminator first removes
the old terminator from its targets' referrer sets.  `none` is the
"programming error" outcome. -/
def applyOp (op : BuildOp) (s : BuildState) : Option BuildState :=
  match op with
  | .push_block label =>
    some { s with
           fn := { s.fn with
                   blocks := s.fn.blocks ++
                     [{ label := label, instrs := [], referrers := [] }] } }
  | .push_instr bIdx i =>
    match s.fn.blocks[bIdx]? with
    | none => none
    | some blk =>
      if i.is_terminating then none
      else if blk.terminated then none
      else
        some { next_id := s.next_id + 1
               fn := { s.fn with
                       blocks := s.fn.blocks.set bIdx
                         { blk with instrs := blk.instrs ++ [(s.next_id, i)] } } }
  | .push_trm bIdx t =>
    match s.fn.blocks[bIdx]? with
    | none => none
    | some blk =>
      if blk.terminated then none
      else if t.toInstr.targets.all (fun tg => tg < s.fn.blocks.length) then
        let blocks1 := s.fn.blocks.set bIdx
          { blk with instrs := blk.instrs ++ [(s.next_id, t.toInstr)] }
        some { next_id := s.next_id + 1
               fn := { s.fn with
                       blocks := addReferrers blocks1 t.toInstr.targets s.next_id } }
      else none
  | .replace_trm bIdx t =>
    match s.fn.blocks[bIdx]? with
    | none => none
    | some blk =>
      match blk.instrs.getLast? with
      | none => none
      | some old =>
        if old.2.is_terminating then
          if t.toInstr.targets.all (fun tg => tg < s.fn.blocks.length) then
            let blocks0 := removeReferrers s.fn.blocks old.2.targets old.1
            match blocks0[bIdx]? with
            | none => none
            | some blk0 =>
              let blocks1 := blocks0.set bIdx
                { blk0 with
                  instrs := blk0.instrs.dropLast ++ [(s.next_id, t.toInstr)] }
              some { next_id := s.next_id + 1
                     fn := { s.fn with
                             blocks := addReferrers blocks1 t.toInstr.targets
                               s.next_id } }
          else none
        else none

/-- Run a sequence of builder calls. -/
def runOps : List BuildOp → BuildState → Option BuildState
  | [], s => some s
  | op :: ops, s =>
    match applyOp op s with
    | none => none
    | some s2 => runOps ops s2

/-! ### Bookkeeping lemmas for the referrer-set operations -/

namespace BlockData

theorem add_referrer_instrs (b : BlockData) (id : Nat) :
    (b.add_referrer id).instrs = b.instrs := by
  unfold add_referrer; split <;> rfl

theorem remove_referrer_instrs (b : BlockData) (id : Nat) :
    (b.remove_referrer id).instrs = b.instrs := rfl

theorem mem_add_referrer (b : BlockData) (id x : Nat) :
    x ∈ (b.add_referrer id).referrers ↔ x ∈ b.referrers ∨ x = id := by
  unfold add_referrer
  split <;> rename_i h <;> simp
  intro hx; subst hx; exact h

theorem mem_remove_referrer (b : BlockData) (id x : Nat) :
    x ∈ (b.remove_referrer id).referrers ↔ x ∈ b.referrers ∧ x ≠ id := by
  unfold remove_referrer
  simp [List.mem_filter]

theorem add_referrer_idem (b : BlockData) (id : Nat) :
    (b.add_referrer id).add_referrer id = b.add_referrer id := by
  unfold add_referrer
  split <;> rename_i h
  · simp [h]
  · simp

theorem remove_referrer_idem (b : BlockData) (id : Nat) :
    (b.remove_referrer id).remove_referrer id = b.remove_referrer id := by
  unfold remove_referrer
  simp [List.filter_filter]

end BlockData

theorem length_addReferrer (blocks : List BlockData) (t id : Nat) :
    (addReferrer blocks t id).length = blocks.length := by
  unfold addReferrer
  cases h : blocks[t]? <;> simp

theorem length_addReferrers (ts : List Nat) (blocks : List BlockData) (id : Nat) :
    (addReferrers blocks ts id).length = blocks.length := by
  induction ts generalizing blocks with
  | nil => rfl
  | cons t ts ih => simp [addReferrers, ih, length_addReferrer]

theorem length_removeReferrer (blocks : List BlockData) (t id : Nat) :
    (removeReferrer blocks t id).length = blocks.length := by
  unfold removeReferrer
  cases h : blocks[t]? <;> simp

theorem length_removeReferrers (ts : List Nat) (blocks : List BlockData) (id : Nat) :
    (removeReferrers blocks ts id).length = blocks.length := by
  induction ts generalizing blocks with
  | nil => rfl
  | cons t ts ih => simp [removeReferrers, ih, length_removeReferrer]

theorem getElem?_addReferrer (blocks : List BlockData) (t id j : Nat) :
    (addReferrer blocks t id)[j]? =
      if j = t then (blocks[j]?).map (fun b => b.add_referrer id)
      else blocks[j]? := by
  unfold addReferrer
  cases h : blocks[t]? with
  | none =>
    by_cases hj : j = t
    · subst hj; simp [h]
    · simp [hj]
  | some tb =>
    rw [List.getElem?_set]
    by_cases hj : j = t
    · subst hj
      have : j < blocks.length := (List.getElem?_eq_some_iff.mp h).1
      simp [h, this]
    · rw [if_neg (fun h2 => hj h2.symm), if_neg hj]

theorem getElem?_addReferrers (ts : List Nat) (blocks : List BlockData)
    (id j : Nat) :
    (addReferrers blocks ts id)[j]? =
      (blocks[j]?).map (fun b => if j ∈ ts then b.add_referrer id else b) := by
  induction ts generalizing blocks with
  | nil =>
    cases h : blocks[j]? <;> simp [addReferrers, h]
  | cons t ts ih =>
    rw [addReferrers, ih, getElem?_addReferrer]
    by_cases hjt : j = t
    · subst hjt
      cases blocks[j]? with
      | none => simp
      | some b =>
        by_cases hjts : j ∈ ts <;>
          simp [hjts, BlockData.add_referrer_idem]
    · cases blocks[j]? with
      | none => simp [hjt]
      | some b =>
        by_cases hjts : j ∈ ts <;> simp [hjt, hjts]

theorem getElem?_removeReferrer (blocks : List BlockData) (t id j : Nat) :
    (removeReferrer blocks t id)[j]? =
      if j = t then (blocks[j]?).map (fun b => b.remove_referrer id)
      else blocks[j]? := by
  unfold removeReferrer
  cases h : blocks[t]? with
  | none =>
    by_cases hj : j = t
    · subst hj; simp [h]
    · simp [hj]
  | some tb =>
    rw [List.getElem?_set]
    by_cases hj : j = t
    · subst hj
      have : j < blocks.length := (List.getElem?_eq_some_iff.mp h).1
      simp [h, this]
    · rw [if_neg (fun h2 => hj h2.symm), if_neg hj]

theorem getElem?_removeReferrers (ts : List Nat) (blocks : List BlockData)
    (id j : Nat) :
    (removeReferrers blocks ts id)[j]? =
      (blocks[j]?).map (fun b => if j ∈ ts then b.remove_referrer id else b) := by
  induction ts generalizing blocks with
  | nil =>
    cases h : blocks[j]? <;> simp [removeReferrers, h]
  | cons t ts ih =>
    rw [removeReferrers, ih, getElem?_removeReferrer]
    by_cases hjt : j = t
    · subst hjt
      cases blocks[j]? with
      | none => simp
      | some b =>
        by_cases hjts : j ∈ ts <;>
          simp [hjts, BlockData.remove_referrer_idem]
    · cases blocks[j]? with
      | none => simp [hjt]
      | some b =>
        by_cases hjts : j ∈ ts <;> simp [hjt, hjts]

/-! ### The builder invariants -/

/-- The invariants that every builder-reachable state satisfies:
`one_term` — only the last instruction of a block may be a terminator;
`ids_lt` / `uniq` — instruction ids are fresh and globally unique;
`fwd` — every block an instruction refers to holds that instruction in
its referrer set;
`bwd_all` / `bwd_ex` — every member of a referrer set is (the id of) an
existing instruction whose target list contains the block. -/
structure Inv (s : BuildState) : Prop where
  one_term : ∀ (i : Nat) (blk : BlockData), s.fn.blocks[i]? = some blk →
    ∀ e ∈ blk.instrs.dropLast, e.2.is_terminating = false
  ids_lt : ∀ (i : Nat) (blk : BlockData), s.fn.blocks[i]? = some blk →
    ∀ e ∈ blk.instrs, e.1 < s.next_id
  uniq : ∀ (i : Nat) (ib : BlockData) (j : Nat) (jb : BlockData),
    s.fn.blocks[i]? = some ib → s.fn.blocks[j]? = some jb →
    ∀ e1 ∈ ib.instrs, ∀ e2 ∈ jb.instrs, e1.1 = e2.1 → i = j ∧ e1.2 = e2.2
  fwd : ∀ (i : Nat) (blk : BlockData), s.fn.blocks[i]? = some blk →
    ∀ e ∈ blk.instrs,
    ∀ tg ∈ e.2.targets, ∃ tb, s.fn.blocks[tg]? = some tb ∧ e.1 ∈ tb.referrers
  bwd_all : ∀ (j : Nat) (jb : BlockData), s.fn.blocks[j]? = some jb →
    ∀ id ∈ jb.referrers,
    ∀ (i : Nat) (ib : BlockData), s.fn.blocks[i]? = some ib →
    ∀ e ∈ ib.instrs, e.1 = id → j ∈ e.2.targets
  bwd_ex : ∀ (j : Nat) (jb : BlockData), s.fn.blocks[j]? = some jb →
    ∀ id ∈ jb.referrers,
    ∃ (i : Nat) (ib : BlockData) (e : InstrEntry),
      s.fn.blocks[i]? = some ib ∧ e ∈ ib.instrs ∧ e.1 = id ∧
      j ∈ e.2.targets
  nonempty : s.fn.blocks ≠ []

theorem singleton_getElem? {α : Type} (b x : α) (i : Nat)
    (h : ([b] : List α)[i]? = some x) : x = b := by
  cases i with
  | zero => exact (by simpa using h : b = x).symm
  | succ n => simp at h

theorem inv_initState (name : String) (is_global : Bool) :
    Inv (initState name is_global) := by
  refine ⟨?_, ?_, ?_, ?_, ?_, ?_, ?_⟩
  · intro i blk h e he
    rw [singleton_getElem? _ _ _ h] at he
    simp at he
  · intro i blk h e he
    rw [singleton_getElem? _ _ _ h] at he
    simp at he
  · intro i ib j jb hi hj e1 he1
    rw [singleton_getElem? _ _ _ hi] at he1
    simp at he1
  · intro i blk h e he
    rw [singleton_getElem? _ _ _ h] at he
    simp at he
  · intro j jb h id hid
    rw [singleton_getElem? _ _ _ h] at hid
    simp at hid
  · intro j jb h id hid
    rw [singleton_getElem? _ _ _ h] at hid
    simp at hid
  · simp [initState]

/-- In a block satisfying `one_term` that is not yet terminated, every
instruction is a non-terminator. -/
theorem all_nonterm_of_not_terminated (blk : BlockData)
    (hterm : blk.terminated = false)
    (h1 : ∀ e ∈ blk.instrs.dropLast, e.2.is_terminating = false) :
    ∀ e ∈ blk.instrs, e.2.is_terminating = false := by
  intro e he
  rcases hnil : blk.instrs with _ | _
  · simp [hnil] at he
  · have hne : blk.instrs ≠ [] := by rw [hnil]; simp
    have hsplit := List.dropLast_append_getLast hne
    rw [← hsplit] at he
    rcases List.mem_append.mp he with h | h
    · exact h1 e h
    · have : e = blk.instrs.getLast hne := by simpa using h
      subst this
      unfold BlockData.terminated at hterm
      rw [List.getLast?_eq_getLast blk.instrs hne] at hterm
      simpa using hterm

/-- Membership in a list but not equal to its last element means
membership in `dropLast`. -/
theorem mem_dropLast_of_ne_getLast {α : Type} (l : List α) (e : α)
    (he : e ∈ l) (hne : l ≠ []) (h : e ≠ l.getLast hne) : e ∈ l.dropLast := by
  have hsplit := List.dropLast_append_getLast hne
  rw [← hsplit] at he
  rcases List.mem_append.mp he with h2 | h2
  · exact h2
  · exact absurd (by simpa using h2) h

theorem getElem?_concat {α : Type} (l : List α) (x : α) (i : Nat) :
    (l ++ [x])[i]? =
      if i < l.length then l[i]? else if i = l.length then some x else none := by
  rw [List.getElem?_append]
  by_cases h1 : i < l.length
  · simp [h1]
  · rw [if_neg h1, if_neg h1]
    by_cases h2 : i = l.length
    · subst h2; simp
    · rw [if_neg h2]
      cases hd : i - l.length with
      | zero => omega
      | succ n => simp

theorem getElem?_set_of_lt {α : Type} (l : List α) (i : Nat) (a : α)
    (hi : i < l.length) (j : Nat) :
    (l.set i a)[j]? = if j = i then some a else l[j]? := by
  rw [List.getElem?_set]
  by_cases hj : i = j
  · subst hj; simp [hi]
  · rw [if_neg hj, if_neg (fun h2 => hj h2.symm)]

theorem inv_push_block {s : BuildState} (h : Inv s) (label : String)
    {s' : BuildState} (ha : applyOp (.push_block label) s = some s') :
    Inv s' := by
  have hs' : s' =
      { s with fn := { s.fn with blocks := s.fn.blocks ++
          [{ label := label, instrs := [], referrers := [] }] } } := by
    simp [applyOp] at ha
    exact ha.symm
  subst hs'
  have hsplit : ∀ (j : Nat) (jb : BlockData),
      (s.fn.blocks ++ [{ label := label, instrs := [], referrers := [] }])[j]? =
        some jb →
      s.fn.blocks[j]? = some jb ∨
        jb = { label := label, instrs := [], referrers := [] } := by
    intro j jb hj
    rw [getElem?_concat] at hj
    split_ifs at hj with h1 h2
    · exact Or.inl hj
    · exact Or.inr (Option.some.inj hj).symm
  have hlift : ∀ (j : Nat) (jb : BlockData), s.fn.blocks[j]? = some jb →
      (s.fn.blocks ++ [{ label := label, instrs := [], referrers := [] }])[j]? =
        some jb := by
    intro j jb hj
    have : j < s.fn.blocks.length := (List.getElem?_eq_some_iff.mp hj).1
    rw [getElem?_concat, if_pos this]
    exact hj
  refine ⟨?_, ?_, ?_, ?_, ?_, ?_, ?_⟩
  · intro i blk hi e he
    rcases hsplit i blk hi with hold | rfl
    · exact h.one_term i blk hold e he
    · simp at he
  · intro i blk hi e he
    rcases hsplit i blk hi with hold | rfl
    · exact h.ids_lt i blk hold e he
    · simp at he
  · intro i ib j jb hi hj e1 he1 e2 he2 hid
    rcases hsplit i ib hi with hio | rfl
    · rcases hsplit j jb hj with hjo | rfl
      · exact h.uniq i ib j jb hio hjo e1 he1 e2 he2 hid
      · simp at he2
    · simp at he1
  · intro i blk hi e he tg htg
    rcases hsplit i blk hi with hold | rfl
    · obtain ⟨tb, htb, hmem⟩ := h.fwd i blk hold e he tg htg
      exact ⟨tb, hlift tg tb htb, hmem⟩
    · simp at he
  · intro j jb hj id hid i ib hi e he hide
    rcases hsplit j jb hj with hjo | rfl
    · rcases hsplit i ib hi with hio | rfl
      · exact h.bwd_all j jb hjo id hid i ib hio e he hide
      · simp at he
    · simp at hid
  · intro j jb hj id hid
    rcases hsplit j jb hj with hjo | rfl
    · obtain ⟨i, ib, e, hi, he, hide, htg⟩ := h.bwd_ex j jb hjo id hid
      exact ⟨i, ib, e, hlift i ib hi, he, hide, htg⟩
    · simp at hid
  · simp

theorem inv_push_instr {s : BuildState} (h : Inv s) (bIdx : Nat) (ins : Instr)
    {s' : BuildState} (ha : applyOp (.push_instr bIdx ins) s = some s') :
    Inv s' := by
  simp only [applyOp] at ha
  cases hb : s.fn.blocks[bIdx]? with
  | none => rw [hb] at ha; simp at ha
  | some blk =>
    rw [hb] at ha
    by_cases ht : ins.is_terminating = true
    · simp [ht] at ha
    · by_cases htm : blk.terminated = true
      · simp [ht, htm] at ha
      · rw [Bool.not_eq_true] at ht htm
        simp [ht, htm] at ha
        have hlen : bIdx < s.fn.blocks.length := (List.getElem?_eq_some_iff.mp hb).1
        set blk2 : BlockData :=
          { blk with instrs := blk.instrs ++ [(s.next_id, ins)] } with hblk2
        have hs' : s' =
            { next_id := s.next_id + 1
              fn := { s.fn with blocks := s.fn.blocks.set bIdx blk2 } } := ha.symm
        subst hs'
        have hget : ∀ (j : Nat),
            (s.fn.blocks.set bIdx blk2)[j]? =
              if j = bIdx then some blk2 else s.fn.blocks[j]? :=
          fun j => getElem?_set_of_lt _ _ _ hlen j
        have hsplit : ∀ (j : Nat) (jb : BlockData),
            (s.fn.blocks.set bIdx blk2)[j]? = some jb →
            (j = bIdx ∧ jb = blk2) ∨ (j ≠ bIdx ∧ s.fn.blocks[j]? = some jb) := by
          intro j jb hj
          rw [hget] at hj
          by_cases hjb : j = bIdx
          · rw [if_pos hjb] at hj
            exact Or.inl ⟨hjb, (Option.some.inj hj).symm⟩
          · rw [if_neg hjb] at hj
            exact Or.inr ⟨hjb, hj⟩
        have hmem2 : ∀ e ∈ blk2.instrs, e ∈ blk.instrs ∨ e = (s.next_id, ins) := by
          intro e he
          rw [hblk2] at he
          simpa using he
        have hrefs2 : blk2.referrers = blk.referrers := rfl
        refine ⟨?_, ?_, ?_, ?_, ?_, ?_, ?_⟩
        · intro i ib hi e he
          rcases hsplit i ib hi with ⟨hieq, rfl⟩ | ⟨hine, hold⟩
          · rw [hblk2] at he
            simp only [List.dropLast_concat] at he
            exact all_nonterm_of_not_terminated blk htm
              (h.one_term bIdx blk hb) e he
          · exact h.one_term i ib hold e he
        · intro i ib hi e he
          rcases hsplit i ib hi with ⟨hieq, rfl⟩ | ⟨hine, hold⟩
          · rcases hmem2 e he with hold2 | rfl
            · exact Nat.lt_succ_of_lt (h.ids_lt bIdx blk hb e hold2)
            · exact Nat.lt_succ_self _
          · exact Nat.lt_succ_of_lt (h.ids_lt i ib hold e he)
        · intro i ib j jb hi hj e1 he1 e2 he2 hid
          rcases hsplit i ib hi with ⟨hieq, rfl⟩ | ⟨hine, hio⟩ <;>
            rcases hsplit j jb hj with ⟨hjeq, rfl⟩ | ⟨hjne, hjo⟩
          · rcases hmem2 e1 he1 with h1 | rfl <;> rcases hmem2 e2 he2 with h2 | rfl
            · refine ⟨hieq.trans hjeq.symm, ?_⟩
              exact (h.uniq bIdx blk bIdx blk hb hb e1 h1 e2 h2 hid).2
            · exact absurd hid (by
                have := h.ids_lt bIdx blk hb e1 h1
                simp only []
                omega)
            · exact absurd hid (by
                have := h.ids_lt bIdx blk hb e2 h2
                simp only []
                omega)
            · exact ⟨hieq.trans hjeq.symm, rfl⟩
          · rcases hmem2 e1 he1 with h1 | rfl
            · have := h.uniq bIdx blk j jb hb hjo e1 h1 e2 he2 hid
              exact ⟨hieq.trans this.1, this.2⟩
            · exact absurd hid (by
                have := h.ids_lt j jb hjo e2 he2
                simp only []
                omega)
          · rcases hmem2 e2 he2 with h2 | rfl
            · have := h.uniq i ib bIdx blk hio hb e1 he1 e2 h2 hid
              exact ⟨this.1.trans hjeq.symm, this.2⟩
            · exact absurd hid (by
                have := h.ids_lt i ib hio e1 he1
                simp only []
                omega)
          · exact h.uniq i ib j jb hio hjo e1 he1 e2 he2 hid
        · intro i ib hi e he tg htg
          have lift : ∀ (eOld : InstrEntry), eOld ∈ blk.instrs ∨
                (∃ ib0, s.fn.blocks[i]? = some ib0 ∧ eOld ∈ ib0.instrs) →
              True := fun _ _ => trivial
          have step : ∀ (e0 : InstrEntry), (∃ (i0 : Nat) (ib0 : BlockData),
                s.fn.blocks[i0]? = some ib0 ∧ e0 ∈ ib0.instrs) →
              ∀ tg0 ∈ e0.2.targets, ∃ tb,
                (s.fn.blocks.set bIdx blk2)[tg0]? = some tb ∧
                  e0.1 ∈ tb.referrers := by
            intro e0 he0 tg0 htg0
            obtain ⟨i0, ib0, hi0, he0m⟩ := he0
            obtain ⟨tb, htb, hmemtb⟩ := h.fwd i0 ib0 hi0 e0 he0m tg0 htg0
            by_cases htgb : tg0 = bIdx
            · refine ⟨blk2, by rw [hget, if_pos htgb], ?_⟩
              rw [hrefs2]
              have : tb = blk := by
                rw [htgb] at htb
                exact Option.some.inj (htb.symm.trans hb)
              exact this ▸ hmemtb
            · exact ⟨tb, by rw [hget, if_neg htgb]; exact htb, hmemtb⟩
          rcases hsplit i ib hi with ⟨hieq, rfl⟩ | ⟨hine, hold⟩
          · rcases hmem2 e he with holdm | rfl
            · exact step e ⟨bIdx, blk, hb, holdm⟩ tg htg
            · rw [Instr.targets_eq_nil_of_not_terminating ins ht] at htg
              simp at htg
          · exact step e ⟨i, ib, hold, he⟩ tg htg
        · intro j jb hj id hid i ib hi e he hide
          have hjold : ∃ jb0, s.fn.blocks[j]? = some jb0 ∧ id ∈ jb0.referrers := by
            rcases hsplit j jb hj with ⟨hjeq, rfl⟩ | ⟨hjne, hjo⟩
            · exact ⟨blk, by rw [hjeq]; exact hb, by rw [← hrefs2]; exact hid⟩
            · exact ⟨jb, hjo, hid⟩
          obtain ⟨jb0, hjo, hid0⟩ := hjold
          have hidlt : id < s.next_id := by
            obtain ⟨i0, ib0, e0, hi0, he0, hid0e, _⟩ := h.bwd_ex j jb0 hjo id hid0
            exact hid0e ▸ h.ids_lt i0 ib0 hi0 e0 he0
          rcases hsplit i ib hi with ⟨hieq, rfl⟩ | ⟨hine, hio⟩
          · rcases hmem2 e he with holdm | rfl
            · exact h.bwd_all j jb0 hjo id hid0 bIdx blk hb e holdm hide
            · exact absurd hide (by simp only []; omega)
          · exact h.bwd_all j jb0 hjo id hid0 i ib hio e he hide
        · intro j jb hj id hid
          have hjold : ∃ jb0, s.fn.blocks[j]? = some jb0 ∧ id ∈ jb0.referrers := by
            rcases hsplit j jb hj with ⟨hjeq, rfl⟩ | ⟨hjne, hjo⟩
            · exact ⟨blk, by rw [hjeq]; exact hb, by rw [← hrefs2]; exact hid⟩
            · exact ⟨jb, hjo, hid⟩
          obtain ⟨jb0, hjo, hid0⟩ := hjold
          obtain ⟨i0, ib0, e0, hi0, he0, hid0e, htg0⟩ := h.bwd_ex j jb0 hjo id hid0
          by_cases hib : i0 = bIdx
          · have : ib0 = blk := by
              rw [hib] at hi0
              exact Option.some.inj (hi0.symm.trans hb)
            subst this
            refine ⟨i0, blk2, e0, by rw [hget, if_pos hib], ?_, hid0e, htg0⟩
            rw [hblk2]
            simp only [List.mem_append]
            exact Or.inl he0
          · exact ⟨i0, ib0, e0, by rw [hget, if_neg hib]; exact hi0, he0, hid0e, htg0⟩
        · have hne := h.nonempty
          intro hc
          apply hne
          have h0 : (s.fn.blocks.set bIdx blk2).length = 0 := by
            simpa using congrArg List.length hc
          rw [List.length_set] at h0
          exact List.length_eq_zero.mp h0

theorem inv_push_trm {s : BuildState} (h : Inv s) (bIdx : Nat) (t : Terminator)
    {s' : BuildState} (ha : applyOp (.push_trm bIdx t) s = some s') :
    Inv s' := by
  simp only [applyOp] at ha
  cases hb : s.fn.blocks[bIdx]? with
  | none => rw [hb] at ha; simp at ha
  | some blk =>
    rw [hb] at ha
    by_cases htm : blk.terminated = true
    · simp [htm] at ha
    · by_cases hall :
        (t.toInstr.targets.all fun tg => decide (tg < s.fn.blocks.length)) = true
      · rw [Bool.not_eq_true] at htm
        simp [htm, hall] at ha
        have hlen : bIdx < s.fn.blocks.length := (List.getElem?_eq_some_iff.mp hb).1
        have htgs : ∀ tg ∈ t.toInstr.targets, tg < s.fn.blocks.length := by
          intro tg htg
          have := List.all_eq_true.mp hall tg htg
          simpa using this
        set blk2 : BlockData :=
          { blk with instrs := blk.instrs ++ [(s.next_id, t.toInstr)] } with hblk2
        set blocks1 : List BlockData := s.fn.blocks.set bIdx blk2 with hblocks1
        have hs' : s' =
            { next_id := s.next_id + 1
              fn := { s.fn with
                      blocks := addReferrers blocks1 t.toInstr.targets s.next_id } } := by
          rw [← ha]
        subst hs'
        have hget1 : ∀ (j : Nat),
            blocks1[j]? = if j = bIdx then some blk2 else s.fn.blocks[j]? :=
          fun j => getElem?_set_of_lt _ _ _ hlen j
        have hget : ∀ (j : Nat),
            (addReferrers blocks1 t.toInstr.targets s.next_id)[j]? =
              (blocks1[j]?).map
                (fun b => if j ∈ t.toInstr.targets
                          then b.add_referrer s.next_id else b) :=
          fun j => getElem?_addReferrers _ _ _ _
        -- decompose a lookup in the new block list
        have hsplit : ∀ (j : Nat) (jb : BlockData),
            (addReferrers blocks1 t.toInstr.targets s.next_id)[j]? = some jb →
            ∃ jb1, ((j = bIdx ∧ jb1 = blk2) ∨
                (j ≠ bIdx ∧ s.fn.blocks[j]? = some jb1)) ∧
              jb = (if j ∈ t.toInstr.targets
                    then jb1.add_referrer s.next_id else jb1) := by
          intro j jb hj
          rw [hget, hget1] at hj
          by_cases hjb : j = bIdx
          · rw [if_pos hjb] at hj
            exact ⟨blk2, Or.inl ⟨hjb, rfl⟩, (Option.some.inj hj).symm⟩
          · rw [if_neg hjb] at hj
            cases hjo : s.fn.blocks[j]? with
            | none => rw [hjo] at hj; simp at hj
            | some jb1 =>
              rw [hjo] at hj
              exact ⟨jb1, Or.inr ⟨hjb, rfl⟩, (Option.some.inj hj).symm⟩
        have hinstr_if : ∀ (jb1 : BlockData) (j : Nat),
            ((if j ∈ t.toInstr.targets
              then jb1.add_referrer s.next_id else jb1) : BlockData).instrs =
              jb1.instrs := by
          intro jb1 j
          split
          · exact BlockData.add_referrer_instrs jb1 s.next_id
          · rfl
        have hrefs_if : ∀ (jb1 : BlockData) (j : Nat) (x : Nat),
            x ∈ ((if j ∈ t.toInstr.targets
                  then jb1.add_referrer s.next_id else jb1) : BlockData).referrers ↔
              x ∈ jb1.referrers ∨ (x = s.next_id ∧ j ∈ t.toInstr.targets) := by
          intro jb1 j x
          split <;> rename_i hj
          · rw [BlockData.mem_add_referrer]
            constructor
            · rintro (hx | rfl)
              · exact Or.inl hx
              · exact Or.inr ⟨rfl, hj⟩
            · rintro (hx | ⟨rfl, _⟩)
              · exact Or.inl hx
              · exact Or.inr rfl
          · constructor
            · exact Or.inl
            · rintro (hx | ⟨rfl, hj2⟩)
              · exact hx
              · exact absurd hj2 hj
        have hmem2 : ∀ e ∈ blk2.instrs,
            e ∈ blk.instrs ∨ e = (s.next_id, t.toInstr) := by
          intro e he
          rw [hblk2] at he
          simpa using he
        refine ⟨?_, ?_, ?_, ?_, ?_, ?_, ?_⟩
        · intro i ib hi e he
          obtain ⟨ib1, hsrc, rfl⟩ := hsplit i ib hi
          rw [hinstr_if] at he
          rcases hsrc with ⟨hieq, rfl⟩ | ⟨hine, hold⟩
          · rw [hblk2] at he
            simp only [List.dropLast_concat] at he
            exact all_nonterm_of_not_terminated blk htm
              (h.one_term bIdx blk hb) e he
          · exact h.one_term i ib1 hold e he
        · intro i ib hi e he
          obtain ⟨ib1, hsrc, rfl⟩ := hsplit i ib hi
          rw [hinstr_if] at he
          rcases hsrc with ⟨hieq, rfl⟩ | ⟨hine, hold⟩
          · rcases hmem2 e he with hold2 | rfl
            · exact Nat.lt_succ_of_lt (h.ids_lt bIdx blk hb e hold2)
            · exact Nat.lt_succ_self _
          · exact Nat.lt_succ_of_lt (h.ids_lt i ib1 hold e he)
        · intro i ib j jb hi hj e1 he1 e2 he2 hid
          obtain ⟨ib1, hisrc, rfl⟩ := hsplit i ib hi
          obtain ⟨jb1, hjsrc, rfl⟩ := hsplit j jb hj
          rw [hinstr_if] at he1
          rw [hinstr_if] at he2
          rcases hisrc with ⟨hieq, rfl⟩ | ⟨hine, hio⟩ <;>
            rcases hjsrc with ⟨hjeq, rfl⟩ | ⟨hjne, hjo⟩
          · rcases hmem2 e1 he1 with h1 | rfl <;> rcases hmem2 e2 he2 with h2 | rfl
            · refine ⟨hieq.trans hjeq.symm, ?_⟩
              exact (h.uniq bIdx blk bIdx blk hb hb e1 h1 e2 h2 hid).2
            · exact absurd hid (by
                have := h.ids_lt bIdx blk hb e1 h1
                simp only []
                omega)
            · exact absurd hid (by
                have := h.ids_lt bIdx blk hb e2 h2
                simp only []
                omega)
            · exact ⟨hieq.trans hjeq.symm, rfl⟩
          · rcases hmem2 e1 he1 with h1 | rfl
            · have := h.uniq bIdx blk j jb1 hb hjo e1 h1 e2 he2 hid
              exact ⟨hieq.trans this.1, this.2⟩
            · exact absurd hid (by
                have := h.ids_lt j jb1 hjo e2 he2
                simp only []
                omega)
          · rcases hmem2 e2 he2 with h2 | rfl
            · have := h.uniq i ib1 bIdx blk hio hb e1 he1 e2 h2 hid
              exact ⟨this.1.trans hjeq.symm, this.2⟩
            · exact absurd hid (by
                have := h.ids_lt i ib1 hio e1 he1
                simp only []
                omega)
          · exact h.uniq i ib1 j jb1 hio hjo e1 he1 e2 he2 hid
        · intro i ib hi e he tg htg
          obtain ⟨ib1, hisrc, rfl⟩ := hsplit i ib hi
          rw [hinstr_if] at he
          rcases hisrc with ⟨hieq, rfl⟩ | ⟨hine, hold⟩
          · rcases hmem2 e he with holdm | rfl
            · obtain ⟨tb, htb, hmemtb⟩ := h.fwd bIdx blk hb e holdm tg htg
              by_cases htgb : tg = bIdx
              · have htbblk : tb = blk := by
                  rw [htgb] at htb
                  exact Option.some.inj (htb.symm.trans hb)
                refine ⟨_, by rw [hget, hget1, if_pos htgb]; rfl, ?_⟩
                rw [hrefs_if]
                exact Or.inl (show e.1 ∈ blk.referrers from htbblk ▸ hmemtb)
              · refine ⟨_, by rw [hget, hget1, if_neg htgb, htb]; rfl, ?_⟩
                rw [hrefs_if]
                exact Or.inl hmemtb
            · -- the new terminator itself
              have htglt : tg < s.fn.blocks.length := htgs tg htg
              by_cases htgb : tg = bIdx
              · refine ⟨_, by rw [hget, hget1, if_pos htgb]; rfl, ?_⟩
                rw [hrefs_if]
                exact Or.inr ⟨rfl, htg⟩
              · cases htb1 : s.fn.blocks[tg]? with
                | none =>
                  rw [List.getElem?_eq_none_iff] at htb1
                  omega
                | some tb1 =>
                  refine ⟨_, by rw [hget, hget1, if_neg htgb, htb1]; rfl, ?_⟩
                  rw [hrefs_if]
                  exact Or.inr ⟨rfl, htg⟩
          · obtain ⟨tb, htb, hmemtb⟩ := h.fwd i ib1 hold e he tg htg
            by_cases htgb : tg = bIdx
            · have htbblk : tb = blk := by
                rw [htgb] at htb
                exact Option.some.inj (htb.symm.trans hb)
              refine ⟨_, by rw [hget, hget1, if_pos htgb]; rfl, ?_⟩
              rw [hrefs_if]
              exact Or.inl (show e.1 ∈ blk.referrers from htbblk ▸ hmemtb)
            · refine ⟨_, by rw [hget, hget1, if_neg htgb, htb]; rfl, ?_⟩
              rw [hrefs_if]
              exact Or.inl hmemtb
        · intro j jb hj id hid i ib hi e he hide
          obtain ⟨jb1, hjsrc, rfl⟩ := hsplit j jb hj
          rw [hrefs_if] at hid
          obtain ⟨ib1, hisrc, rfl⟩ := hsplit i ib hi
          rw [hinstr_if] at he
          rcases hid with hidold | ⟨rfl, hjts⟩
          · have hjold : ∃ jb0, s.fn.blocks[j]? = some jb0 ∧ id ∈ jb0.referrers := by
              rcases hjsrc with ⟨hjeq, rfl⟩ | ⟨hjne, hjo⟩
              · exact ⟨blk, by rw [hjeq]; exact hb, hidold⟩
              · exact ⟨jb1, hjo, hidold⟩
            obtain ⟨jb0, hjo, hid0⟩ := hjold
            have hidlt : id < s.next_id := by
              obtain ⟨i0, ib0, e0, hi0, he0, hid0e, _⟩ :=
                h.bwd_ex j jb0 hjo id hid0
              exact hid0e ▸ h.ids_lt i0 ib0 hi0 e0 he0
            rcases hisrc with ⟨hieq, rfl⟩ | ⟨hine, hio⟩
            · rcases hmem2 e he with holdm | rfl
              · exact h.bwd_all j jb0 hjo id hid0 bIdx blk hb e holdm hide
              · exact absurd hide (by simp only []; omega)
            · exact h.bwd_all j jb0 hjo id hid0 i ib1 hio e he hide
          · rcases hisrc with ⟨hieq, rfl⟩ | ⟨hine, hio⟩
            · rcases hmem2 e he with holdm | rfl
              · exact absurd hide (by
                  have := h.ids_lt bIdx blk hb e holdm
                  omega)
              · exact hjts
            · exact absurd hide (by
                have := h.ids_lt i ib1 hio e he
                omega)
        · intro j jb hj id hid
          obtain ⟨jb1, hjsrc, rfl⟩ := hsplit j jb hj
          rw [hrefs_if] at hid
          rcases hid with hidold | ⟨rfl, hjts⟩
          · have hjold : ∃ jb0, s.fn.blocks[j]? = some jb0 ∧ id ∈ jb0.referrers := by
              rcases hjsrc with ⟨hjeq, rfl⟩ | ⟨hjne, hjo⟩
              · exact ⟨blk, by rw [hjeq]; exact hb, hidold⟩
              · exact ⟨jb1, hjo, hidold⟩
            obtain ⟨jb0, hjo, hid0⟩ := hjold
            obtain ⟨i0, ib0, e0, hi0, he0, hid0e, htg0⟩ :=
              h.bwd_ex j jb0 hjo id hid0
            by_cases hib : i0 = bIdx
            · have hib0 : ib0 = blk := by
                rw [hib] at hi0
                exact Option.some.inj (hi0.symm.trans hb)
              refine ⟨i0,
                (if i0 ∈ t.toInstr.targets
                 then blk2.add_referrer s.next_id else blk2), e0,
                by rw [hget, hget1, if_pos hib]; rfl, ?_, hid0e, htg0⟩
              rw [hinstr_if, hblk2]
              simp only [List.mem_append]
              exact Or.inl (hib0 ▸ he0)
            · refine ⟨i0,
                (if i0 ∈ t.toInstr.targets
                 then ib0.add_referrer s.next_id else ib0), e0,
                by rw [hget, hget1, if_neg hib, hi0]; rfl, ?_, hid0e, htg0⟩
              rw [hinstr_if]
              exact he0
          · refine ⟨bIdx,
              (if bIdx ∈ t.toInstr.targets
               then blk2.add_referrer s.next_id else blk2),
              (s.next_id, t.toInstr),
              by rw [hget, hget1, if_pos rfl]; rfl, ?_, rfl, hjts⟩
            rw [hinstr_if, hblk2]
            simp
        · have hne := h.nonempty
          intro hc
          apply hne
          have h0 : (addReferrers blocks1 t.toInstr.targets s.next_id).length = 0 := by
            simpa using congrArg List.length hc
          rw [length_addReferrers, hblocks1, List.length_set] at h0
          exact List.length_eq_zero.mp h0
      · simp [hall] at ha

theorem inv_replace_trm {s : BuildState} (h : Inv s) (bIdx : Nat)
    (t : Terminator) {s' : BuildState}
    (ha : applyOp (.replace_trm bIdx t) s = some s') : Inv s' := by
  simp only [applyOp] at ha
  cases hb : s.fn.blocks[bIdx]? with
  | none => rw [hb] at ha; simp at ha
  | some blk =>
    rw [hb] at ha
    simp only [] at ha
    cases hlast : blk.instrs.getLast? with
    | none => rw [hlast] at ha; simp at ha
    | some old =>
      rw [hlast] at ha
      by_cases hterm : old.2.is_terminating = true
      · by_cases hall :
          (t.toInstr.targets.all fun tg => decide (tg < s.fn.blocks.length)) = true
        · simp only [hterm, hall, if_true] at ha
          have hlen : bIdx < s.fn.blocks.length :=
            (List.getElem?_eq_some_iff.mp hb).1
          have htgs : ∀ tg ∈ t.toInstr.targets, tg < s.fn.blocks.length := by
            intro tg htg
            have := List.all_eq_true.mp hall tg htg
            simpa using this
          have hold_mem : old ∈ blk.instrs := List.mem_of_mem_getLast? hlast
          have hblk_ne : blk.instrs ≠ [] := by
            intro hc
            rw [hc] at hlast
            simp at hlast
          have hold_last : blk.instrs.getLast hblk_ne = old := by
            have := List.getLast?_eq_getLast blk.instrs hblk_ne
            rw [hlast] at this
            exact (Option.some.inj this).symm
          -- the block list after removing the old terminator from the
          -- referrer sets of its targets
          set blocks0 : List BlockData :=
            removeReferrers s.fn.blocks old.2.targets old.1 with hblocks0
          have hget0 : ∀ (j : Nat),
              blocks0[j]? = (s.fn.blocks[j]?).map
                (fun b => if j ∈ old.2.targets
                          then b.remove_referrer old.1 else b) :=
            fun j => getElem?_removeReferrers _ _ _ _
          have hlen0 : bIdx < blocks0.length := by
            rw [hblocks0, length_removeReferrers]
            exact hlen
          cases hb0 : blocks0[bIdx]? with
          | none =>
            rw [List.getElem?_eq_none_iff] at hb0
            omega
          | some blk0 =>
            rw [hb0] at ha
            have hblk0 : blk0 =
                (if bIdx ∈ old.2.targets
                 then blk.remove_referrer old.1 else blk) := by
              rw [hget0, hb] at hb0
              exact (Option.some.inj hb0).symm
            have hblk0_instrs : blk0.instrs = blk.instrs := by
              rw [hblk0]
              split
              · exact BlockData.remove_referrer_instrs blk old.1
              · rfl
            have hblk0_refs : ∀ x, x ∈ blk0.referrers ↔
                x ∈ blk.referrers ∧ (bIdx ∈ old.2.targets → x ≠ old.1) := by
              intro x
              rw [hblk0]
              split <;> rename_i hmem
              · rw [BlockData.mem_remove_referrer]
                constructor
                · rintro ⟨h1, h2⟩; exact ⟨h1, fun _ => h2⟩
                · rintro ⟨h1, h2⟩; exact ⟨h1, h2 hmem⟩
              · constructor
                · intro h1; exact ⟨h1, fun hc => absurd hc hmem⟩
                · rintro ⟨h1, _⟩; exact h1
            set blk3 : BlockData :=
              { blk0 with
                instrs := blk0.instrs.dropLast ++ [(s.next_id, t.toInstr)] }
              with hblk3
            set blocks1 : List BlockData := blocks0.set bIdx blk3 with hblocks1
            have hs' : s' =
                { next_id := s.next_id + 1
                  fn := { s.fn with
                          blocks := addReferrers blocks1 t.toInstr.targets
                            s.next_id } } := (Option.some.inj ha).symm
            subst hs'
            have hget1 : ∀ (j : Nat),
                blocks1[j]? = if j = bIdx then some blk3 else blocks0[j]? :=
              fun j => getElem?_set_of_lt _ _ _ hlen0 j
            have hget : ∀ (j : Nat),
                (addReferrers blocks1 t.toInstr.targets s.next_id)[j]? =
                  (blocks1[j]?).map
                    (fun b => if j ∈ t.toInstr.targets
                              then b.add_referrer s.next_id else b) :=
              fun j => getElem?_addReferrers _ _ _ _
            have hinstr_if : ∀ (jb1 : BlockData) (j : Nat),
                ((if j ∈ t.toInstr.targets
                  then jb1.add_referrer s.next_id else jb1) : BlockData).instrs =
                  jb1.instrs := by
              intro jb1 j
              split
              · exact BlockData.add_referrer_instrs jb1 s.next_id
              · rfl
            have hrefs_if : ∀ (jb1 : BlockData) (j : Nat) (x : Nat),
                x ∈ ((if j ∈ t.toInstr.targets
                      then jb1.add_referrer s.next_id else jb1) :
                      BlockData).referrers ↔
                  x ∈ jb1.referrers ∨ (x = s.next_id ∧ j ∈ t.toInstr.targets) := by
              intro jb1 j x
              split <;> rename_i hj
              · rw [BlockData.mem_add_referrer]
                constructor
                · rintro (hx | rfl)
                  · exact Or.inl hx
                  · exact Or.inr ⟨rfl, hj⟩
                · rintro (hx | ⟨rfl, _⟩)
                  · exact Or.inl hx
                  · exact Or.inr rfl
              · constructor
                · exact Or.inl
                · rintro (hx | ⟨rfl, hj2⟩)
                  · exact hx
                  · exact absurd hj2 hj
            -- decompose a lookup in the final block list
            have hsplit : ∀ (j : Nat) (jb : BlockData),
                (addReferrers blocks1 t.toInstr.targets s.next_id)[j]? =
                  some jb →
                ∃ jb1, ((j = bIdx ∧ jb1 = blk3) ∨
                    (j ≠ bIdx ∧ ∃ jbO, s.fn.blocks[j]? = some jbO ∧
                      jb1 = (if j ∈ old.2.targets
                             then jbO.remove_referrer old.1 else jbO))) ∧
                  jb = (if j ∈ t.toInstr.targets
                        then jb1.add_referrer s.next_id else jb1) := by
              intro j jb hj
              rw [hget, hget1] at hj
              by_cases hjb : j = bIdx
              · rw [if_pos hjb] at hj
                exact ⟨blk3, Or.inl ⟨hjb, rfl⟩, (Option.some.inj hj).symm⟩
              · rw [if_neg hjb, hget0] at hj
                cases hjo : s.fn.blocks[j]? with
                | none => exact absurd hj (by rw [hjo]; simp)
                | some jbO =>
                  rw [hjo] at hj
                  simp only [Option.map_some'] at hj
                  exact ⟨_, Or.inr ⟨hjb, jbO, rfl, rfl⟩,
                    (Option.some.inj hj).symm⟩
            have hblk3_instrs : blk3.instrs =
                blk.instrs.dropLast ++ [(s.next_id, t.toInstr)] := by
              rw [hblk3, hblk0_instrs]
            have hblk3_refs : blk3.referrers = blk0.referrers := rfl
            -- the instruction entries of the final state
            have hinstr_dec : ∀ (j : Nat) (jb : BlockData),
                (addReferrers blocks1 t.toInstr.targets s.next_id)[j]? =
                  some jb →
                ∀ e ∈ jb.instrs,
                (j = bIdx ∧ (e ∈ blk.instrs.dropLast ∨
                    e = (s.next_id, t.toInstr))) ∨
                  (j ≠ bIdx ∧ ∃ jbO, s.fn.blocks[j]? = some jbO ∧
                    e ∈ jbO.instrs) := by
              intro j jb hj e he
              obtain ⟨jb1, hsrc, rfl⟩ := hsplit j jb hj
              rw [hinstr_if] at he
              rcases hsrc with ⟨hjeq, rfl⟩ | ⟨hjne, jbO, hjo, rfl⟩
              · rw [hblk3_instrs] at he
                rcases List.mem_append.mp he with h1 | h1
                · exact Or.inl ⟨hjeq, Or.inl h1⟩
                · exact Or.inl ⟨hjeq, Or.inr (by simpa using h1)⟩
              · refine Or.inr ⟨hjne, jbO, hjo, ?_⟩
                revert he
                split
                · rw [BlockData.remove_referrer_instrs]
                  exact id
                · exact id
            -- the referrer sets of the final state
            have hrefs_dec : ∀ (j : Nat) (jb : BlockData),
                (addReferrers blocks1 t.toInstr.targets s.next_id)[j]? =
                  some jb →
                ∀ x ∈ jb.referrers,
                ∃ jbO, s.fn.blocks[j]? = some jbO ∧
                  ((x ∈ jbO.referrers ∧ (j ∈ old.2.targets → x ≠ old.1)) ∨
                    (x = s.next_id ∧ j ∈ t.toInstr.targets)) := by
              intro j jb hj x hx
              obtain ⟨jb1, hsrc, rfl⟩ := hsplit j jb hj
              rw [hrefs_if] at hx
              rcases hsrc with ⟨hjeq, rfl⟩ | ⟨hjne, jbO, hjo, rfl⟩
              · refine ⟨blk, by rw [hjeq]; exact hb, ?_⟩
                rcases hx with hx | hx
                · rw [hblk3_refs] at hx
                  rw [hblk0_refs] at hx
                  exact Or.inl ⟨hx.1, by rw [hjeq]; exact hx.2⟩
                · exact Or.inr hx
              · refine ⟨jbO, hjo, ?_⟩
                rcases hx with hx | hx
                · revert hx
                  split <;> rename_i hmem
                  · rw [BlockData.mem_remove_referrer]
                    rintro ⟨h1, h2⟩
                    exact Or.inl ⟨h1, fun _ => h2⟩
                  · intro h1
                    exact Or.inl ⟨h1, fun hc => absurd hc hmem⟩
                · exact Or.inr hx
            -- lifting referrer-set membership into the final state
            have hliftref : ∀ (tg : Nat) (tb : BlockData),
                s.fn.blocks[tg]? = some tb → ∀ (x : Nat),
                ((x ∈ tb.referrers ∧ x ≠ old.1) ∨
                  (x = s.next_id ∧ tg ∈ t.toInstr.targets)) →
                ∃ tb', (addReferrers blocks1 t.toInstr.targets s.next_id)[tg]? =
                    some tb' ∧ x ∈ tb'.referrers := by
              intro tg tb htb x hx
              by_cases htgb : tg = bIdx
              · have htbblk : tb = blk := by
                  rw [htgb] at htb
                  exact Option.some.inj (htb.symm.trans hb)
                refine ⟨_, by rw [hget, hget1, if_pos htgb]; rfl, ?_⟩
                rw [hrefs_if]
                rcases hx with ⟨h1, h2⟩ | hx
                · refine Or.inl ?_
                  rw [hblk3_refs, hblk0_refs]
                  exact ⟨htbblk ▸ h1, fun _ => h2⟩
                · exact Or.inr hx
              · refine ⟨_, by rw [hget, hget1, if_neg htgb, hget0, htb]; rfl, ?_⟩
                rw [hrefs_if]
                rcases hx with ⟨h1, h2⟩ | hx
                · refine Or.inl ?_
                  split <;> rename_i hmem
                  · rw [BlockData.mem_remove_referrer]
                    exact ⟨h1, h2⟩
                  · exact h1
                · exact Or.inr hx
            -- no surviving entry carries the id of the removed terminator
            have hne_old : ∀ (j : Nat) (jbO : BlockData),
                s.fn.blocks[j]? = some jbO → ∀ e ∈ jbO.instrs,
                (j = bIdx → e ∈ blk.instrs.dropLast) → e.1 ≠ old.1 := by
              intro j jbO hjo e he hdrop hc
              by_cases hjb : j = bIdx
              · have hjblk : jbO = blk := by
                  rw [hjb] at hjo
                  exact Option.some.inj (hjo.symm.trans hb)
                have hdrop2 := hdrop hjb
                have := h.uniq bIdx blk bIdx blk hb hb e
                  (List.mem_of_mem_dropLast hdrop2) old hold_mem hc
                have hnonterm := h.one_term bIdx blk hb e hdrop2
                rw [this.2] at hnonterm
                rw [hnonterm] at hterm
                exact absurd hterm (by simp)
              · have := h.uniq j jbO bIdx blk hjo hb e he old hold_mem hc
                exact hjb this.1
            refine ⟨?_, ?_, ?_, ?_, ?_, ?_, ?_⟩
            · intro i ib hi e he
              obtain ⟨ib1, hsrc, rfl⟩ := hsplit i ib hi
              rw [hinstr_if] at he
              rcases hsrc with ⟨hieq, rfl⟩ | ⟨hine, ibO, hio, rfl⟩
              · rw [hblk3_instrs] at he
                simp only [List.dropLast_concat] at he
                exact h.one_term bIdx blk hb e he
              · revert he
                split
                · rw [BlockData.remove_referrer_instrs]
                  intro he
                  exact h.one_term i ibO hio e he
                · intro he
                  exact h.one_term i ibO hio e he
            · intro i ib hi e he
              rcases hinstr_dec i ib hi e he with ⟨hieq, hmem⟩ | ⟨hine, ibO, hio, hmem⟩
              · rcases hmem with hmem | rfl
                · exact Nat.lt_succ_of_lt
                    (h.ids_lt bIdx blk hb e (List.mem_of_mem_dropLast hmem))
                · exact Nat.lt_succ_self _
              · exact Nat.lt_succ_of_lt (h.ids_lt i ibO hio e hmem)
            · intro i ib j jb hi hj e1 he1 e2 he2 hid
              rcases hinstr_dec i ib hi e1 he1 with
                ⟨hieq, hmem1⟩ | ⟨hine, ibO, hio, hmem1⟩ <;>
                rcases hinstr_dec j jb hj e2 he2 with
                  ⟨hjeq, hmem2⟩ | ⟨hjne, jbO, hjo, hmem2⟩
              · rcases hmem1 with h1 | rfl <;> rcases hmem2 with h2 | rfl
                · refine ⟨hieq.trans hjeq.symm, ?_⟩
                  exact (h.uniq bIdx blk bIdx blk hb hb e1
                    (List.mem_of_mem_dropLast h1) e2
                    (List.mem_of_mem_dropLast h2) hid).2
                · exact absurd hid (by
                    have := h.ids_lt bIdx blk hb e1 (List.mem_of_mem_dropLast h1)
                    simp only []
                    omega)
                · exact absurd hid (by
                    have := h.ids_lt bIdx blk hb e2 (List.mem_of_mem_dropLast h2)
                    simp only []
                    omega)
                · exact ⟨hieq.trans hjeq.symm, rfl⟩
              · rcases hmem1 with h1 | rfl
                · have := h.uniq bIdx blk j jbO hb hjo e1
                    (List.mem_of_mem_dropLast h1) e2 hmem2 hid
                  exact ⟨hieq.trans this.1, this.2⟩
                · exact absurd hid (by
                    have := h.ids_lt j jbO hjo e2 hmem2
                    simp only []
                    omega)
              · rcases hmem2 with h2 | rfl
                · have := h.uniq i ibO bIdx blk hio hb e1 hmem1 e2
                    (List.mem_of_mem_dropLast h2) hid
                  exact ⟨this.1.trans hjeq.symm, this.2⟩
                · exact absurd hid (by
                    have := h.ids_lt i ibO hio e1 hmem1
                    simp only []
                    omega)
              · exact h.uniq i ibO j jbO hio hjo e1 hmem1 e2 hmem2 hid
            · intro i ib hi e he tg htg
              rcases hinstr_dec i ib hi e he with
                ⟨hieq, hmem⟩ | ⟨hine, ibO, hio, hmem⟩
              · rcases hmem with hmem | rfl
                · obtain ⟨tb, htb, hmemtb⟩ := h.fwd bIdx blk hb e
                    (List.mem_of_mem_dropLast hmem) tg htg
                  exact hliftref tg tb htb e.1
                    (Or.inl ⟨hmemtb, hne_old bIdx blk hb e
                      (List.mem_of_mem_dropLast hmem) (fun _ => hmem)⟩)
                · have htglt : tg < s.fn.blocks.length := htgs tg htg
                  cases htb : s.fn.blocks[tg]? with
                  | none =>
                    rw [List.getElem?_eq_none_iff] at htb
                    omega
                  | some tb =>
                    exact hliftref tg tb htb s.next_id (Or.inr ⟨rfl, htg⟩)
              · obtain ⟨tb, htb, hmemtb⟩ := h.fwd i ibO hio e hmem tg htg
                exact hliftref tg tb htb e.1
                  (Or.inl ⟨hmemtb, hne_old i ibO hio e hmem
                    (fun hc => absurd hc hine)⟩)
            · intro j jb hj id hid i ib hi e he hide
              obtain ⟨jbO, hjo, hdec⟩ := hrefs_dec j jb hj id hid
              rcases hdec with ⟨hidold, _⟩ | ⟨rfl, hjts⟩
              · rcases hinstr_dec i ib hi e he with
                  ⟨hieq, hmem⟩ | ⟨hine, ibO, hio, hmem⟩
                · rcases hmem with hmem | rfl
                  · exact h.bwd_all j jbO hjo id hidold bIdx blk hb e
                      (List.mem_of_mem_dropLast hmem) hide
                  · exact absurd hide (by
                      obtain ⟨i0, ib0, e0, hi0, he0, hid0e, _⟩ :=
                        h.bwd_ex j jbO hjo id hidold
                      have := h.ids_lt i0 ib0 hi0 e0 he0
                      simp only []
                      omega)
                · exact h.bwd_all j jbO hjo id hidold i ibO hio e hmem hide
              · rcases hinstr_dec i ib hi e he with
                  ⟨hieq, hmem⟩ | ⟨hine, ibO, hio, hmem⟩
                · rcases hmem with hmem | rfl
                  · exact absurd hide (by
                      have := h.ids_lt bIdx blk hb e
                        (List.mem_of_mem_dropLast hmem)
                      omega)
                  · exact hjts
                · exact absurd hide (by
                    have := h.ids_lt i ibO hio e hmem
                    omega)
            · intro j jb hj id hid
              obtain ⟨jbO, hjo, hdec⟩ := hrefs_dec j jb hj id hid
              rcases hdec with ⟨hidold, hnotold⟩ | ⟨rfl, hjts⟩
              · obtain ⟨i0, ib0, e0, hi0, he0, hid0e, htg0⟩ :=
                  h.bwd_ex j jbO hjo id hidold
                by_cases hib : i0 = bIdx
                · have hib0 : ib0 = blk := by
                    rw [hib] at hi0
                    exact Option.some.inj (hi0.symm.trans hb)
                  have he0ne : e0 ≠ old := by
                    intro hc
                    have hidold1 : id = old.1 := by rw [← hid0e, hc]
                    have hjmem : j ∈ old.2.targets := by rw [← hc]; exact htg0
                    exact hnotold hjmem hidold1
                  have he0drop : e0 ∈ blk.instrs.dropLast := by
                    apply mem_dropLast_of_ne_getLast blk.instrs e0
                      (hib0 ▸ he0) hblk_ne
                    rw [hold_last]
                    exact he0ne
                  refine ⟨bIdx,
                    (if bIdx ∈ t.toInstr.targets
                     then blk3.add_referrer s.next_id else blk3), e0,
                    by rw [hget, hget1, if_pos rfl]; rfl, ?_, hid0e, htg0⟩
                  rw [hinstr_if, hblk3_instrs]
                  exact List.mem_append.mpr (Or.inl he0drop)
                · refine ⟨i0,
                    (if i0 ∈ t.toInstr.targets
                     then ((if i0 ∈ old.2.targets
                            then ib0.remove_referrer old.1
                            else ib0) : BlockData).add_referrer s.next_id
                     else (if i0 ∈ old.2.targets
                           then ib0.remove_referrer old.1 else ib0)), e0,
                    ?_, ?_, hid0e, htg0⟩
                  · rw [hget, hget1, if_neg hib, hget0, hi0]
                    rfl
                  · rw [hinstr_if]
                    split
                    · rw [BlockData.remove_referrer_instrs]
                      exact he0
                    · exact he0
              · refine ⟨bIdx,
                  (if bIdx ∈ t.toInstr.targets
                   then blk3.add_referrer s.next_id else blk3),
                  (s.next_id, t.toInstr),
                  by rw [hget, hget1, if_pos rfl]; rfl, ?_, rfl, hjts⟩
                rw [hinstr_if, hblk3_instrs]
                exact List.mem_append.mpr (Or.inr (by simp))
            · have hne := h.nonempty
              intro hc
              apply hne
              have h0 : (addReferrers blocks1 t.toInstr.targets
                  s.next_id).length = 0 := by
                simpa using congrArg List.length hc
              rw [length_addReferrers, hblocks1, List.length_set, hblocks0,
                length_removeReferrers] at h0
              exact List.length_eq_zero.mp h0
        · simp [hterm, hall] at ha
      · simp [hterm] at ha

theorem inv_applyOp {op : BuildOp} {s s' : BuildState} (h : Inv s)
    (ha : applyOp op s = some s') : Inv s' := by
  cases op with
  | push_block label => exact inv_push_block h label ha
  | push_instr b i => exact inv_push_instr h b i ha
  | push_trm b t => exact inv_push_trm h b t ha
  | replace_trm b t => exact inv_replace_trm h b t ha

theorem inv_runOps {ops : List BuildOp} {s s' : BuildState} (h : Inv s)
    (hr : runOps ops s = some s') : Inv s' := by
  induction ops generalizing s with
  | nil =>
    simp only [runOps] at hr
    exact (Option.some.inj hr) ▸ h
  | cons op ops ih =>
    simp only [runOps] at hr
    cases hap : applyOp op s with
    | none => rw [hap] at hr; simp at hr
    | some s2 =>
      rw [hap] at hr
      exact ih (inv_applyOp h hap) hr

/-! ## Sample builder runs used to instantiate the claims -/

/-- A builder run producing a function whose entry block holds one
non-terminator followed by a `ret` terminator. -/
def c1ops : List BuildOp :=
  [.push_instr 0 (.ctx_set_strict false), .push_trm 0 (.ret 0)]

/-- The state `c1ops` reaches from a fresh function. -/
def c1state : BuildState :=
  { next_id := 2
    fn := { name := "f", is_global := true
            blocks := [{ label := ""
                         instrs := [(0, .ctx_set_strict false), (1, .ret 0)]
                         referrers := [] }] } }

/-- A builder run adding a second block and jumping to it. -/
def c2ops : List BuildOp := [.push_block "next", .push_trm 0 (.jmp 1)]

/-- The state `c2ops` reaches from a fresh function. -/
def c2state : BuildState :=
  { next_id := 1
    fn := { name := "g", is_global := false
            blocks := [{ label := "", instrs := [(0, .jmp 1)], referrers := [] },
                       { label := "next", instrs := [], referrers := [0] }] } }

/-! ## The claims -/

/-- A type-parameter comparison in the words of the spec: same identifier
and same parameters — element type and length for arrays, pointee type for
pointers, name for opaque types; for the ID_REFERENCE types only the
identifier is compared, because `ReferenceType` inherits the base
`Type::equal_to` and its name is ignored. -/
def sameParams : Ty → Ty → Prop
  | .arrayType t l, .arrayType t' l' => sameParams t t' ∧ l = l'
  | .pointerType t, .pointerType t' => sameParams t t'
  | .opaqueType n, .opaqueType n' => n = n'
  | x, y => x.identifier = y.identifier

/-- C3 counterexample: two `ReferenceType` instances with distinct
referred-entity names, which `equal_to` nevertheless reports equal; the
claim "x.equal_to(y) iff ... the referred-entity name [matches] for
reference types" is false here. -/
theorem claim_C3_counterexample :
    (Ty.referenceType "a").equal_to (Ty.referenceType "b") = true ∧
      "a" ≠ "b" := by
  constructor
  · rfl
  · decide

/-- C3 (amended): `x.equal_to(y)` returns true iff `x` and `y` have the
same identifier and the same parameters — element type and length for
array types, pointee type for pointer types, name for opaque types —
while for reference types only the identifier is compared and the
referred-entity name is ignored (`ReferenceType` does not override
`Type::equal_to`). -/
theorem claim_C3_amended (x y : Ty) : x.equal_to y = true ↔ sameParams x y := by
  induction x generalizing y with
  | arrayType t l ih =>
    cases y <;> simp_all [Ty.equal_to, sameParams, Ty.identifier]
  | pointerType t ih =>
    cases y <;> simp_all [Ty.equal_to, sameParams, Ty.identifier]
  | opaqueType n =>
    cases y <;> simp [Ty.equal_to, sameParams, Ty.identifier]
  | referenceType n =>
    cases y <;> simp [Ty.equal_to, sameParams, Ty.identifier]
  | _ =>
    cases y <;> simp [Ty.equal_to, sameParams, Ty.identifier]

/-- C5: `Type::less_than` is a strict order consistent with
`Type::equal_to`: for every pair exactly one of `x.less_than(y)`,
`y.less_than(x)`, `x.equal_to(y)` holds, `less_than` is transitive, and no
type is less than itself. -/
theorem claim_C5 :
    (∀ x y : Ty,
      (x.less_than y).toNat + (y.less_than x).toNat + (x.equal_to y).toNat = 1) ∧
    (∀ x y z : Ty, x.less_than y = true → y.less_than z = true →
      x.less_than z = true) ∧
    (∀ x : Ty, x.less_than x = false) := by
  refine ⟨Ty.trichotomy, Ty.less_than_trans, ?_⟩
  intro x
  have ht := Ty.trichotomy x x
  rw [Ty.equal_to_refl] at ht
  cases hx : x.less_than x with
  | false => rfl
  | true => rw [hx] at ht; simp at ht

/-- C5 witness: the theorem applied at concrete types. -/
theorem claim_C5_witness :
    ((Ty.void.less_than .boolean).toNat + (Ty.boolean.less_than .void).toNat +
      (Ty.void.equal_to .boolean).toNat = 1) ∧
    Ty.void.less_than .double = true := by
  refine ⟨claim_C5.1 .void .boolean, ?_⟩
  exact claim_C5.2.1 .void .boolean .double (by decide) (by decide)

/-- C7: `is_terminating()` returns true exactly for the branch, jump and
return instructions, and false for every other instruction variant. -/
theorem claim_C7 (i : Instr) :
    i.is_terminating = true ↔
      ((∃ c tb fb, i = .br c tb fb) ∨ (∃ b, i = .jmp b) ∨ (∃ v, i = .ret v)) := by
  cases i <;> simp [Instr.is_terminating]

/-- C9: the debug printing `as_string()` is well-defined (returns a string
without failing an assertion) for every type variant constructed by the
source. -/
theorem claim_C9 (t : Ty) : (t.as_string).isSome = true := by
  induction t <;> simp_all [Ty.as_string]

/-- An `ArrayElementConstant` over a pointer-typed operand (admitted by
the constructor's assertion). -/
def c10_pointer_const : ArrayElementConstant :=
  { array_ty := .pointerType .double, index := 0 }

/-- An `ArrayElementConstant` over an array-typed operand. -/
def c10_array_const : ArrayElementConstant :=
  { array_ty := .arrayType .value 3, index := 0 }

/-- C10: evaluation at the failing input.  The constructor's assertion
admits both an array-typed and a pointer-typed operand, and for the
array-typed operand `type()` returns the element type; but for the
pointer-typed operand the `static_cast<const ArrayType *>` inside
`type()` is applied to a `PointerType` object, so `type()` is not
well-defined there. -/
theorem claim_C10_code_bug :
    c10_pointer_const.ctor_assertion = true ∧
    c10_pointer_const.type = none ∧
    c10_array_const.ctor_assertion = true ∧
    c10_array_const.type = some .value := by
  refine ⟨rfl, rfl, rfl, rfl⟩

/-- C4: `es_throw<T>(m)` constructs an instance of `T` from `m`, sets it
as the pending exception on the topmost context of the context stack,
leaves the rest of the stack untouched, and returns normally (it is a
total function into `some`; no host-language exception escapes). -/
theorem claim_C4 (T : ErrClass) (m : String) (top : EsContext)
    (rest : List EsContext) :
    es_throw T m (top :: rest) =
      some ({ pending_exception :=
                some (.from_obj (create_inst T m)) } :: rest) ∧
    (create_inst T m).message = m := by
  constructor
  · rfl
  · cases T <;> rfl

/-- The built-in error classes, in the order declared in
runtime/error.hh. -/
def errClasses : List ErrClass :=
  [.esError, .esEvalError, .esRangeError, .esReferenceError,
   .esSyntaxError, .esTypeError, .esUriError]

/-- C8: the runtime error hierarchy has exactly seven built-in classes —
generic Error plus Eval, Range, Reference, Syntax, Type and URI errors —
each constructible from a message value; each native error constructed
from `m` observes the canonical `name()` and `message() = m`. -/
theorem claim_C8 :
    (∀ c : ErrClass, c ∈ errClasses) ∧ errClasses.Nodup ∧
    errClasses.length = 7 ∧
    (∀ m : String,
      (create_inst .esError m).message = m ∧
      (create_inst .esEvalError m).name = "EvalError" ∧
      (create_inst .esEvalError m).message = m ∧
      (create_inst .esRangeError m).name = "RangeError" ∧
      (create_inst .esRangeError m).message = m ∧
      (create_inst .esReferenceError m).name = "ReferenceError" ∧
      (create_inst .esReferenceError m).message = m ∧
      (create_inst .esSyntaxError m).name = "SyntaxError" ∧
      (create_inst .esSyntaxError m).message = m ∧
      (create_inst .esTypeError m).name = "TypeError" ∧
      (create_inst .esTypeError m).message = m ∧
      (create_inst .esUriError m).name = "URIError" ∧
      (create_inst .esUriError m).message = m) := by
  refine ⟨?_, ?_, rfl, ?_⟩
  · intro c
    cases c <;> simp [errClasses]
  · decide
  · intro m
    exact ⟨rfl, rfl, rfl, rfl, rfl, rfl, rfl, rfl, rfl, rfl, rfl, rfl, rfl⟩

/-- The entry block of `c1state`. -/
def c1block : BlockData :=
  { label := ""
    instrs := [(0, .ctx_set_strict false), (1, .ret 0)]
    referrers := [] }

/-- Modelled from the spec: the native code emitter is external to the
sources, and its contract (spec, External interfaces) requires "each
block to end with exactly one terminator"; a function is in emitted form
once every non-empty block is terminated. -/
def EmittedFn (f : FunctionData) : Prop :=
  ∀ blk ∈ f.blocks, blk.instrs ≠ [] → blk.terminated = true

/-- The blocks reachable from the entry block (index 0) in the
control-flow graph: the entry is reachable, and so is every target of an
instruction of a reachable block. -/
inductive ReachableBlock (f : FunctionData) : Nat → Prop where
  | entry : ReachableBlock f 0
  | step (i : Nat) (ib : BlockData) (e : InstrEntry) (tg : Nat) :
      ReachableBlock f i → f.blocks[i]? = some ib → e ∈ ib.instrs →
      tg ∈ e.2.targets → ReachableBlock f tg

/-- C1 counterexample: a builder run (accepted without any programming
error) whose emitted function consists of one block — the entry block,
trivially reachable — that is terminated, yet the non-terminator at
position 0 precedes the terminator at position 1 of the same block; so
"no non-terminator precedes a terminator in the same block", read as
stated, is false of this emitted function. -/
theorem claim_C1_counterexample :
    runOps c1ops (initState "f" true) = some c1state ∧
    c1state.fn.blocks.length = 1 ∧
    (∀ blk ∈ c1state.fn.blocks, blk.terminated = true) ∧
    (c1state.fn.blocks.map
      (fun blk => blk.instrs.map (fun e => e.2.is_terminating))) =
      [[false, true]] := by
  refine ⟨rfl, rfl, ?_, rfl⟩
  intro blk hblk
  rw [show c1state.fn.blocks =
      [{ label := ""
         instrs := [(0, .ctx_set_strict false), (1, .ret 0)]
         referrers := [] }] from rfl] at hblk
  rw [List.mem_singleton] at hblk
  subst hblk
  rfl

/-- C1 (amended): for every function the builder can reach, (1) in
emitted form every block reachable from the entry block is either empty
or its instruction list ends with a terminator; (2) a terminator occurs
only as the last instruction of its block, so no instruction follows a
terminator; and (3) the builder treats a non-terminator factory call on
an already-terminated block, or a terminator factory call on a block
whose last instruction is already a terminator, as a programming
error. -/
theorem claim_C1_amended (name : String) (g : Bool) (ops : List BuildOp)
    (s : BuildState) (h : runOps ops (initState name g) = some s) :
    (∀ (bi : Nat) (blk : BlockData), EmittedFn s.fn →
      ReachableBlock s.fn bi → s.fn.blocks[bi]? = some blk →
      blk.instrs = [] ∨
        (∃ e, blk.instrs.getLast? = some e ∧ e.2.is_terminating = true)) ∧
    (∀ (bi : Nat) (blk : BlockData), s.fn.blocks[bi]? = some blk →
      ∀ e ∈ blk.instrs.dropLast, e.2.is_terminating = false) ∧
    (∀ (bi : Nat) (blk : BlockData) (i : Instr), s.fn.blocks[bi]? = some blk →
      blk.terminated = true → i.is_terminating = false →
      applyOp (.push_instr bi i) s = none) ∧
    (∀ (bi : Nat) (blk : BlockData) (t : Terminator),
      s.fn.blocks[bi]? = some blk → blk.terminated = true →
      applyOp (.push_trm bi t) s = none) := by
  have hinv : Inv s := inv_runOps (inv_initState name g) h
  refine ⟨?_, hinv.one_term, ?_, ?_⟩
  · intro bi blk hemit _ hb
    by_cases hne : blk.instrs = []
    · exact Or.inl hne
    · refine Or.inr ?_
      have htm := hemit blk (List.getElem?_mem hb) hne
      unfold BlockData.terminated at htm
      cases hl : blk.instrs.getLast? with
      | none =>
        rw [List.getLast?_eq_none_iff] at hl
        exact absurd hl hne
      | some e =>
        rw [hl] at htm
        exact ⟨e, rfl, htm⟩
  · intro bi blk i hb htm hnt
    simp [applyOp, hb, hnt, htm]
  · intro bi blk t hb htm
    simp [applyOp, hb, htm]

/-- C1 witness: the amended claim applied to the concrete run `c1ops`,
whose final state is in emitted form; the first conjunct is discharged at
the entry block, which is reachable by `ReachableBlock.entry`. -/
theorem claim_C1_amended_witness :
    runOps c1ops (initState "f" true) = some c1state ∧
    EmittedFn c1state.fn ∧
    ReachableBlock c1state.fn 0 ∧
    c1state.fn.blocks[0]? = some c1block ∧
    (c1block.instrs = [] ∨
      (∃ e, c1block.instrs.getLast? = some e ∧ e.2.is_terminating = true)) ∧
    ((∀ (bi : Nat) (blk : BlockData), c1state.fn.blocks[bi]? = some blk →
      ∀ e ∈ blk.instrs.dropLast, e.2.is_terminating = false) ∧
    (∀ (bi : Nat) (blk : BlockData) (i : Instr),
      c1state.fn.blocks[bi]? = some blk →
      blk.terminated = true → i.is_terminating = false →
      applyOp (.push_instr bi i) c1state = none) ∧
    (∀ (bi : Nat) (blk : BlockData) (t : Terminator),
      c1state.fn.blocks[bi]? = some blk → blk.terminated = true →
      applyOp (.push_trm bi t) c1state = none)) := by
  have hemit : EmittedFn c1state.fn := by
    intro blk hblk _
    rw [show c1state.fn.blocks = [c1block] from rfl, List.mem_singleton] at hblk
    subst hblk
    rfl
  have hmain := claim_C1_amended "f" true c1ops c1state rfl
  exact ⟨rfl, hemit, .entry, rfl,
    hmain.1 0 c1block hemit .entry rfl,
    hmain.2.1, hmain.2.2.1, hmain.2.2.2⟩

/-- C2: referrer closure for every builder-reachable function: every
terminator `T` of a block that references a block `B'` is in `B'`'s
referrer set, and every member of a referrer set is (the id of) an
existing instruction whose target list contains the block; the sets are
maintained by `add_referrer` at build time and by `remove_referrer` when
a terminator is replaced (the `replace_trm` builder step). -/
theorem claim_C2 (name : String) (g : Bool) (ops : List BuildOp)
    (s : BuildState) (h : runOps ops (initState name g) = some s) :
    (∀ (i : Nat) (blk : BlockData), s.fn.blocks[i]? = some blk →
      ∀ e ∈ blk.instrs, e.2.is_terminating = true →
      ∀ tg ∈ e.2.targets, ∃ tb, s.fn.blocks[tg]? = some tb ∧
        e.1 ∈ tb.referrers) ∧
    (∀ (j : Nat) (jb : BlockData), s.fn.blocks[j]? = some jb →
      ∀ id ∈ jb.referrers,
      ∃ (i : Nat) (ib : BlockData) (e : InstrEntry),
        s.fn.blocks[i]? = some ib ∧ e ∈ ib.instrs ∧ e.1 = id ∧
        j ∈ e.2.targets) := by
  have hinv : Inv s := inv_runOps (inv_initState name g) h
  refine ⟨?_, hinv.bwd_ex⟩
  intro i blk hb e he _ tg htg
  exact hinv.fwd i blk hb e he tg htg

/-- C2 witness: the theorem applied to the concrete run `c2ops`, which
makes block 0 jump to block 1. -/
theorem claim_C2_witness :
    runOps c2ops (initState "g" false) = some c2state ∧
    ((∀ (i : Nat) (blk : BlockData), c2state.fn.blocks[i]? = some blk →
      ∀ e ∈ blk.instrs, e.2.is_terminating = true →
      ∀ tg ∈ e.2.targets, ∃ tb, c2state.fn.blocks[tg]? = some tb ∧
        e.1 ∈ tb.referrers) ∧
    (∀ (j : Nat) (jb : BlockData), c2state.fn.blocks[j]? = some jb →
      ∀ id ∈ jb.referrers,
      ∃ (i : Nat) (ib : BlockData) (e : InstrEntry),
        c2state.fn.blocks[i]? = some ib ∧ e ∈ ib.instrs ∧ e.1 = id ∧
        j ∈ e.2.targets)) :=
  ⟨rfl, claim_C2 "g" false c2ops c2state rfl⟩

/-- C6: every function holds at least one block from the moment of its
construction (the entry block created by the constructor), every builder
operation preserves that lower bound, and `Function::last_block()` never
returns NULL (`none`). -/
theorem claim_C6 (name : String) (g : Bool) :
    (initState name g).fn.blocks ≠ [] ∧
    (initState name g).fn.last_block ≠ none ∧
    (∀ (ops : List BuildOp) (s : BuildState),
      runOps ops (initState name g) = some s →
      s.fn.blocks ≠ [] ∧ s.fn.last_block ≠ none) := by
  refine ⟨by simp [initState], by simp [initState, FunctionData.last_block], ?_⟩
  intro ops s h
  have hinv : Inv s := inv_runOps (inv_initState name g) h
  refine ⟨hinv.nonempty, ?_⟩
  rw [FunctionData.last_block, Ne, List.getLast?_eq_none_iff]
  exact hinv.nonempty

/-- C6 witness: the theorem applied to a fresh function and to the state
reached by the concrete run `c1ops`. -/
theorem claim_C6_witness :
    (initState "f" true).fn.blocks ≠ [] ∧
    (c1state.fn.blocks ≠ [] ∧ c1state.fn.last_block ≠ none) :=
  ⟨(claim_C6 "f" true).1, (claim_C6 "f" true).2.2 c1ops c1state rfl⟩

end Descripten
